import Mathlib

/-!
Verification of the multilevel/quotient-space motion-planning core
(BundleSpaceGraph, QuotientSpaceGraphSparse, QRRTStarImpl, QMPImpl).

The C++ sources are shallowly embedded: each C++ function that a claim
depends on is translated into a Lean function over explicit state records.
External collaborators (state spaces, collision checking, optimization
objectives) enter as parameters, exactly as they are opaque interfaces to
the C++ core.  Costs are modelled as rationals; the configured default
objective is PathLengthOptimizationObjective, whose combineCosts is
addition, isCostBetterThan is strict less-than, and motionCost is the
(nonnegative) state-space distance.
-/

/-! ### Strategy setters (BundleSpaceGraph.cpp, setPropagator / setMetric /
setImportance / setGraphSampler, lines 482-539)

Each setter compares the name string against the known strategy names and
either installs the named strategy or throws ompl::Exception.  A throwing
call is modelled as `Except.error`, mirroring that configuration aborts. -/

inductive PropagatorKind where
  | geometric
  | dynamic
deriving DecidableEq, Repr

inductive MetricKind where
  | geodesic
  | shortestpath
deriving DecidableEq, Repr

inductive ImportanceKind where
  | uniform
  | greedy
  | exponential
deriving DecidableEq, Repr

inductive GraphSamplerKind where
  | randomvertex
  | randomedge
deriving DecidableEq, Repr

/-- BundleSpaceGraph::setPropagator: installs the geometric or dynamic
propagator, and throws on any other name. -/
def setPropagator (s : String) : Except String PropagatorKind :=
  if s = "geometric" then Except.ok PropagatorKind.geometric
  else if s = "dynamic" then Except.ok PropagatorKind.dynamic
  else Except.error "Unknown Propagator"

/-- BundleSpaceGraph::setMetric: installs the geodesic or shortestpath
metric, and throws on any other name. -/
def setMetric (s : String) : Except String MetricKind :=
  if s = "geodesic" then Except.ok MetricKind.geodesic
  else if s = "shortestpath" then Except.ok MetricKind.shortestpath
  else Except.error "Unknown Metric"

/-- BundleSpaceGraph::setImportance: installs the uniform, greedy or
exponential importance, and throws on any other name. -/
def setImportance (s : String) : Except String ImportanceKind :=
  if s = "uniform" then Except.ok ImportanceKind.uniform
  else if s = "greedy" then Except.ok ImportanceKind.greedy
  else if s = "exponential" then Except.ok ImportanceKind.exponential
  else Except.error "Unknown Importance"

/-- BundleSpaceGraph::setGraphSampler: installs the randomvertex or
randomedge sampler, and throws on any other name. -/
def setGraphSampler (s : String) : Except String GraphSamplerKind :=
  if s = "randomvertex" then Except.ok GraphSamplerKind.randomvertex
  else if s = "randomedge" then Except.ok GraphSamplerKind.randomedge
  else Except.error "Unknown Graph Sampler"

/-! ### Goal-biased sampling (BundleSpaceGraph::sampleBundleGoalBias,
lines 668-687, and the inlined copy in QMPImpl::grow, lines 115-131)

The random draw `rng_.uniform01()` enters as the parameter `s`, and the
decision of the function is what matters for the claim, so the embedding
returns which of the two actions the code takes: copying the goal state
into the sample, or invoking the bundle sampler. -/

inductive SampleAction where
  | copyGoal
  | invokeSampler
deriving DecidableEq, Repr

/-- BundleSpaceGraph::sampleBundleGoalBias: with a solution on this bundle
space there is no goal biasing (the sampler runs); otherwise the goal state
is copied exactly when the uniform draw s falls below goalBias. -/
def sampleBundleGoalBias (hasSolution : Bool) (s goalBias : ℚ) : SampleAction :=
  if hasSolution then SampleAction.invokeSampler
  else if s < goalBias then SampleAction.copyGoal
  else SampleAction.invokeSampler

/-- QMPImpl::grow, sampling step (lines 115-131): the same goal-bias
decision, written out inline in the planner. -/
def qmpGrowSampleAction (hasSolution : Bool) (s goalBias : ℚ) : SampleAction :=
  if hasSolution then SampleAction.invokeSampler
  else if s < goalBias then SampleAction.copyGoal
  else SampleAction.invokeSampler

/-! ### SPARS coverage test (QuotientSpaceGraphSparse.cpp,
findGraphNeighbors lines 375-386, checkAddCoverage lines 396-414)

States are abstract (`S`); the state-space distance and the motion
validity checker are parameters.  `nearestSparse_->nearestR` returns the
sparse configurations within radius sparseDelta of the sample, and
findGraphNeighbors filters these by checkMotion into the visible
neighborhood.  checkAddCoverage adds the sample as a guard exactly when
the visible neighborhood is empty. -/

/-- QuotientSpaceGraphSparse::findGraphNeighbors: the pair of the graph
neighborhood (sparse states within sparseDelta) and the visible
neighborhood (those also reachable by a valid motion). -/
def findGraphNeighbors {S : Type} (dist : S → S → ℚ) (checkMotion : S → S → Bool)
    (sparseDelta : ℚ) (sparseVerts : List S) (q : S) : List S × List S :=
  let graphNeighborhood := sparseVerts.filter (fun v => dist q v ≤ sparseDelta)
  let visibleNeighborhood := graphNeighborhood.filter (fun v => checkMotion q v)
  (graphNeighborhood, visibleNeighborhood)

/-- QuotientSpaceGraphSparse::checkAddCoverage: fires (adds the sample as
a guard) exactly when the visible neighborhood handed to it is empty. -/
def checkAddCoverage {S : Type} (visibleNeighborhood : List S) : Bool :=
  visibleNeighborhood.isEmpty

/-- The coverage add-test as executed on a dense sample: findGraphNeighbors
followed by checkAddCoverage on the visible neighborhood. -/
def coverageAdds {S : Type} (dist : S → S → ℚ) (checkMotion : S → S → Bool)
    (sparseDelta : ℚ) (sparseVerts : List S) (q : S) : Bool :=
  checkAddCoverage (findGraphNeighbors dist checkMotion sparseDelta sparseVerts q).2

/-! ### Rewiring lower bounds and neighbor-set computation
(multilevel QRRTStarImpl.cpp, getNearestNeighbors lines 316-331 and
calculateRewiringLowerBounds lines 333-341)

Double arithmetic is modelled over the reals.  The bundle-space dimension
d, the free-space measure mu and the unit-d-ball measure zeta enter as
parameters (the latter two are produced by external library calls). -/

/-- calculateRewiringLowerBounds, line 338: the k-RRT* constant
2^(d+1) * e * (1 + 1/d). -/
noncomputable def k_rrt_Constant (d : ℝ) : ℝ :=
  (2 : ℝ) ^ (d + 1) * Real.exp 1 * (1 + 1 / d)

/-- calculateRewiringLowerBounds, line 340: the r-RRT* constant
(2 * (1 + 1/d) * (mu / zeta))^(1/d). -/
noncomputable def r_rrt_Constant (d mu zeta : ℝ) : ℝ :=
  (2 * (1 + 1 / d) * (mu / zeta)) ^ (1 / d)

/-- getNearestNeighbors, k-nearest branch (lines 318-323): with
cardDbl = size + 1, the requested neighbor count is
ceil(kConst * log cardDbl). -/
noncomputable def getNearestNeighbors_k (kConst : ℝ) (size : ℕ) : ℤ :=
  ⌈kConst * Real.log ((size : ℝ) + 1)⌉

/-- getNearestNeighbors, radius branch (lines 324-329): with
cardDbl = size + 1, the requested radius is
min(maxDistance, rConst * (log cardDbl / cardDbl)^(1/d)). -/
noncomputable def getNearestNeighbors_r (maxDistance rConst d : ℝ) (size : ℕ) : ℝ :=
  min maxDistance (rConst * (Real.log ((size : ℝ) + 1) / ((size : ℝ) + 1)) ^ (1 / d))

/-- The spec formula kRRT = 2^(d+1) * e * (1 + 1/d), written from the
spec text of section 4.5.2. -/
noncomputable def kRRT_spec (d : ℝ) : ℝ :=
  (2 : ℝ) ^ (d + 1) * Real.exp 1 * (1 + 1 / d)

/-- The spec formula rRRT = (2 * (1+1/d) * mu(Xfree) / zeta_d)^(1/d),
written from the spec text of section 4.5.2. -/
noncomputable def rRRT_spec (d mu zeta : ℝ) : ℝ :=
  (2 * (1 + 1 / d) * mu / zeta) ^ (1 / d)

/-- The spec formula k = ceil(kRRT * ln(V+1)) for a tree holding V
vertices, written from the spec text of section 4.5.2. -/
noncomputable def neighborCount_spec (d : ℝ) (V : ℕ) : ℤ :=
  ⌈kRRT_spec d * Real.log ((V : ℝ) + 1)⌉

/-- The spec formula r = min(maxDistance, rRRT * (ln(V+1)/(V+1))^(1/d))
for a tree holding V vertices, written from the spec text of
section 4.5.2. -/
noncomputable def neighborRadius_spec (maxDistance d mu zeta : ℝ) (V : ℕ) : ℝ :=
  min maxDistance (rRRT_spec d mu zeta * (Real.log ((V : ℝ) + 1) / ((V : ℝ) + 1)) ^ (1 / d))

/-! ### Roadmap graph with disjoint sets (BundleSpaceGraph.cpp:
addConfiguration lines 312-321, uniteComponents/sameComponent lines
283-291, addEdge lines 541-547; QuotientSpaceGraphSparse.cpp:
removeEdgeIfReductionLoop lines 1044-1112)

The boost disjoint-sets structure is modelled by its semantics: a
representative function on vertex indices; union_set redirects one class
to the other's representative, and same_component compares
representatives.  The undirected boost graph is an edge list over vertex
indices.  The path-visibility test used by the reducible-loop removal is
an abstract boolean parameter (it only inspects states, which edge
removal does not change). -/

structure RoadmapGraph where
  numVertices : ℕ
  edges : List (ℕ × ℕ)
  rep : ℕ → ℕ

def initialRoadmap : RoadmapGraph :=
  { numVertices := 0, edges := [], rep := fun x => x }

/-- BundleSpaceGraph::addConfiguration: add_vertex plus
disjointSets_.make_set on the fresh index. -/
def addConfigurationGraph (G : RoadmapGraph) : RoadmapGraph :=
  let m := G.numVertices
  { numVertices := m + 1
    edges := G.edges
    rep := fun x => if x = m then m else G.rep x }

/-- BundleSpaceGraph::uniteComponents: disjointSets_.union_set(a, b),
modelled as redirecting b's class to a's representative. -/
def uniteComponents (G : RoadmapGraph) (a b : ℕ) : RoadmapGraph :=
  { G with rep := fun x => if G.rep x = G.rep b then G.rep a else G.rep x }

/-- BundleSpaceGraph::sameComponent: boost::same_component, i.e. equality
of representatives. -/
def sameComponent (G : RoadmapGraph) (a b : ℕ) : Bool :=
  G.rep a == G.rep b

/-- BundleSpaceGraph::addEdge: boost::add_edge followed by
uniteComponents(a, b).  The edge weight (a motion cost) does not affect
connectivity and is omitted. -/
def addEdgeGraph (G : RoadmapGraph) (a b : ℕ) : RoadmapGraph :=
  uniteComponents { G with edges := (a, b) :: G.edges } a b

/-- Targets of the boost out_edges of v: the other endpoint of every
incident edge. -/
def outNeighbors (es : List (ℕ × ℕ)) (v : ℕ) : List ℕ :=
  es.filterMap (fun e =>
    if e.1 = v then some e.2 else if e.2 = v then some e.1 else none)

/-- boost::remove_edge(v1, v2): removes every edge whose endpoint pair is
(v1, v2) in either orientation. -/
def removeAllEdgesBetween (es : List (ℕ × ℕ)) (v1 v2 : ℕ) : List (ℕ × ℕ) :=
  es.filter (fun e => !((e.1 == v1 && e.2 == v2) || (e.1 == v2 && e.2 == v1)))

/-- QuotientSpaceGraphSparse::removeEdgeIfReductionLoop, common-neighbor
computation (lines 1051-1090): the neighbors of v1 other than v2 that are
also neighbors of v2 other than v1, with duplicates removed (the sort plus
unique of the source is modelled by dedup; only membership is used). -/
def commonNeighbors (es : List (ℕ × ℕ)) (v1 v2 : ℕ) : List ℕ :=
  let v1n := (outNeighbors es v1).filter (fun x => x ≠ v2)
  let v2n := (outNeighbors es v2).filter (fun x => x ≠ v1)
  (v1n.filter (fun x => v2n.contains x)).dedup

/-- QuotientSpaceGraphSparse::removeEdgeIfReductionLoop (lines 1044-1112):
for each common neighbor v3 of the edge's endpoints, if the triangle
(v1, v3, v2) is visible from (v1, v2), remove the edge v1-v2.  The
disjoint sets are not touched. -/
def removeEdgeIfReductionLoop (visCheck : ℕ → ℕ → ℕ → Bool) (G : RoadmapGraph)
    (v1 v2 : ℕ) : RoadmapGraph :=
  { G with
    edges := (commonNeighbors G.edges v1 v2).foldl
      (fun es v3 => if visCheck v1 v3 v2 then removeAllEdgesBetween es v1 v2 else es)
      G.edges }

/-- The graph operations a level's roadmap is built from: vertex
insertion, edge insertion (uniting components) and the reducible-loop
edge removal.  Edge insertions with out-of-range endpoints do not occur
in the source and are skipped. -/
inductive GraphOp where
  | addVertex
  | addEdge (a b : ℕ)
  | removeLoopEdge (v1 v2 : ℕ)

def applyGraphOp (visCheck : ℕ → ℕ → ℕ → Bool) (G : RoadmapGraph) :
    GraphOp → RoadmapGraph
  | GraphOp.addVertex => addConfigurationGraph G
  | GraphOp.addEdge a b =>
      if a < G.numVertices ∧ b < G.numVertices then addEdgeGraph G a b else G
  | GraphOp.removeLoopEdge v1 v2 => removeEdgeIfReductionLoop visCheck G v1 v2

def runGraphOps (visCheck : ℕ → ℕ → ℕ → Bool) (ops : List GraphOp) : RoadmapGraph :=
  ops.foldl (applyGraphOp visCheck) initialRoadmap

/-- Undirected adjacency in an edge list. -/
def adjacentIn (es : List (ℕ × ℕ)) (a b : ℕ) : Prop :=
  (a, b) ∈ es ∨ (b, a) ∈ es

/-- A path exists between a and b in the undirected graph with edge list
es. -/
def ReachIn (es : List (ℕ × ℕ)) : ℕ → ℕ → Prop :=
  Relation.ReflTransGen (adjacentIn es)

/-! ### Path-class enumeration (QuotientSpaceGraphSparse.cpp:
pushPathToStack lines 958-1027, printAllPathsUtil lines 1279-1324,
enumerateAllPaths lines 1339-1416)

The geometric (non-dynamic) branch is embedded.  The path simplifier
(smoothBSpline/simplifyMax, or interpolate on SO2), the projectability
test, the feasibility check and the path-visibility checker act only on
state sequences and enter as abstract parameters.  The sparse graph is an
edge list over vertex indices with a state attached to every vertex.
The C++ DFS terminates because the visited array shrinks the reachable
set; the embedding makes this explicit with a fuel argument (any fuel at
least the vertex count reproduces the full recursion). -/

structure EnumEnv (S : Type) where
  simplifyFn : List S → List S
  projectable : List S → Bool
  feasible : List S → Bool
  visible : List S → List S → Bool
  stateOf : ℕ → S
  edges : List (ℕ × ℕ)
  Nhead : ℕ

structure EnumState (S : Type) where
  pathStack : List (List S)
  failures : ℕ

/-- QuotientSpaceGraphSparse::pushPathToStack (lines 958-1027): simplify
the candidate, reject it (counting a failure) if it is not projectable,
not feasible, or visible-equivalent to a path already on the stack;
otherwise append it to the stack. -/
def pushPathToStack {S : Type} (E : EnumEnv S) (st : EnumState S) (path : List S) :
    EnumState S :=
  let gpath := E.simplifyFn path
  if !E.projectable gpath then { st with failures := st.failures + 1 }
  else if !E.feasible gpath then { st with failures := st.failures + 1 }
  else if st.pathStack.isEmpty then { st with pathStack := st.pathStack ++ [gpath] }
  else if st.pathStack.any (fun pathk => E.visible gpath pathk) then
    { st with failures := st.failures + 1 }
  else { st with pathStack := st.pathStack ++ [gpath] }

mutual

/-- QuotientSpaceGraphSparse::printAllPathsUtil (lines 1279-1324): the
depth-bounded DFS from u to d.  It returns immediately once the stack
holds more than Nhead paths or more than 10 pushes have failed; at the
goal it hands the current vertex path to pushPathToStack; otherwise it
recurses into the unvisited neighbors of u. -/
def printAllPathsUtil {S : Type} (E : EnumEnv S) (fuel : ℕ) (u d : ℕ)
    (visited path : List ℕ) (st : EnumState S) : EnumState S :=
  match fuel with
  | 0 => st
  | Nat.succ fuel' =>
    if st.pathStack.length > E.Nhead then st
    else if st.failures > 10 then st
    else
      let visited' := u :: visited
      let path' := path ++ [u]
      if u = d then
        pushPathToStack E st (path'.map E.stateOf)
      else
        dfsNeighborLoop E fuel' d visited' path' (outNeighbors E.edges u) st
termination_by (fuel, 0)

/-- The neighbor loop of printAllPathsUtil (lines 1305-1318): visit each
unvisited neighbor in turn, breaking out as soon as the stack holds more
than Nhead paths. -/
def dfsNeighborLoop {S : Type} (E : EnumEnv S) (fuel : ℕ) (d : ℕ)
    (visited path : List ℕ) (nbrs : List ℕ) (st : EnumState S) : EnumState S :=
  match nbrs with
  | [] => st
  | v :: vs =>
    if visited.contains v then dfsNeighborLoop E fuel d visited path vs st
    else
      let st' := printAllPathsUtil E fuel v d visited path st
      if st'.pathStack.length > E.Nhead then st'
      else dfsNeighborLoop E fuel d visited path vs st'
termination_by (fuel, nbrs.length + 1)

end

/-- enumerateAllPaths, head extraction (lines 1402-1410): the head of the
path stack handed to the next level holds the first min(Nhead, stack
size) stacked paths. -/
def pathStackHead {S : Type} (E : EnumEnv S) (st : EnumState S) : List (List S) :=
  st.pathStack.take E.Nhead

/-- enumerateAllPaths, geometric branch (lines 1365-1410): reset the
failure counter, run the DFS from the sparse start to the sparse goal,
and extract the path-stack head. -/
def enumerateAllPaths {S : Type} (E : EnumEnv S) (fuel vStart vGoal : ℕ)
    (st : EnumState S) : EnumState S × List (List S) :=
  let st' := printAllPathsUtil E fuel vStart vGoal [] [] { st with failures := 0 }
  (st', pathStackHead E st')

/-! ### The QRRT* tree and its grow step (multilevel QRRTStarImpl.cpp,
grow lines 84-272, updateChildCosts lines 274-281, removeFromParent
lines 282-292)

Configurations live in an arena indexed by natural numbers; index 0 is
qStart (the first configuration inserted by init).  The optimization
objective is the configured default PathLengthOptimizationObjective:
combineCosts is rational addition, isCostBetterThan is strict less-than,
and bestCost starts at infiniteCost (modelled by WithTop).  States are
abstract; motionCost, checkMotion, the state-space distance and the goal
test enter through GrowEnv.  The outcomes of the external calls of one
grow iteration (the steered sample xNew, the nearest vertex vNearest and
the neighbor list nbh returned by the nearest-neighbor index) enter as
arguments, so the theorems quantify over every possible outcome. -/

structure Conf (S : Type) where
  state : S
  parent : Option ℕ
  cost : ℚ
  lineCost : ℚ
  children : List ℕ

instance {S : Type} [Inhabited S] : Inhabited (Conf S) :=
  ⟨{ state := default, parent := none, cost := 0, lineCost := 0, children := [] }⟩

structure TreeState (S : Type) where
  size : ℕ
  conf : ℕ → Conf S
  goalConfigurations : List ℕ
  qGoal : Option ℕ
  bestCost : WithTop ℚ
  hasSolution : Bool

structure GrowEnv (S : Type) where
  motionCost : S → S → ℚ
  checkMotion : S → S → Bool
  dist : S → S → ℚ
  goalSat : S → Bool
  useKNearest : Bool
  maxDistance : ℚ
  symmetric : Bool

def setConf {S : Type} (T : TreeState S) (i : ℕ) (c : Conf S) : TreeState S :=
  { T with conf := fun j => if j = i then c else T.conf j }

/-- QRRTStarImpl::removeFromParent (lines 282-292): erase the first
occurrence of q in its parent's children list.  (The C++ dereferences the
parent unconditionally; the theorems show the call is only reached for
configurations that have one.) -/
def removeFromParent {S : Type} [Inhabited S] (T : TreeState S) (q : ℕ) : TreeState S :=
  match (T.conf q).parent with
  | none => T
  | some p => setConf T p { T.conf p with children := (T.conf p).children.erase q }

def appendChild {S : Type} [Inhabited S] (T : TreeState S) (p c : ℕ) : TreeState S :=
  setConf T p { T.conf p with children := (T.conf p).children ++ [c] }

/-- QRRTStarImpl::updateChildCosts (lines 274-281): for every child of q
set cost to combineCosts(q.cost, child.lineCost) and recurse.  The C++
recursion terminates along the (acyclic) children structure; the
embedding carries fuel, and the arena size is enough fuel under the tree
invariant. -/
def updateChildCosts {S : Type} [Inhabited S] (fuel : ℕ) (T : TreeState S) (q : ℕ) :
    TreeState S :=
  match fuel with
  | 0 => T
  | Nat.succ fuel' =>
    (T.conf q).children.foldl
      (fun acc c =>
        updateChildCosts fuel'
          (setConf acc c { acc.conf c with cost := (acc.conf q).cost + (acc.conf c).lineCost })
          c)
      T

/-- The running state of the choose-parent loop (grow lines 122-174):
the current best parent with its line cost and combined cost, the
validNeighbor cache and the lineCosts cache, both indexed by loop
position.  The C++ fills lineCosts only when the space is symmetric; the
embedding always records the value the C++ would store, and every read is
guarded by the symmetric flag exactly as in the source. -/
structure ChooseParentState where
  parent : ℕ
  lineCost : ℚ
  cost : ℚ
  validNeighbor : List ℤ
  lineCosts : List ℚ

/-- grow lines 122-125: q_new initially points at q_nearest. -/
def chooseParentInit {S : Type} [Inhabited S] (E : GrowEnv S) (T : TreeState S)
    (vNearest : ℕ) (xNew : S) : ChooseParentState :=
  let line := E.motionCost (T.conf vNearest).state xNew
  { parent := vNearest, lineCost := line, cost := (T.conf vNearest).cost + line
    validNeighbor := [], lineCosts := [] }

/-- One iteration of the choose-parent loop (grow lines 140-174).  For
the nearest vertex itself the validNeighbor entry is 1 and the cached
lineCosts entry is cost_nearest, the combined cost of reaching q_new via
q_nearest, exactly as line 149 of the source stores it. -/
def chooseParentStep {S : Type} [Inhabited S] (E : GrowEnv S) (T : TreeState S)
    (vNearest : ℕ) (xNew : S) (costNearest : ℚ) (st : ChooseParentState) (qn : ℕ) :
    ChooseParentState :=
  if qn = vNearest then
    { st with validNeighbor := st.validNeighbor ++ [1]
              lineCosts := st.lineCosts ++ [costNearest] }
  else
    let line := E.motionCost (T.conf qn).state xNew
    let newCost := (T.conf qn).cost + line
    if newCost < st.cost then
      if (!E.useKNearest || E.dist (T.conf qn).state xNew < E.maxDistance) &&
          E.checkMotion (T.conf qn).state xNew then
        { parent := qn, lineCost := line, cost := newCost
          validNeighbor := st.validNeighbor ++ [1], lineCosts := st.lineCosts ++ [line] }
      else
        { st with validNeighbor := st.validNeighbor ++ [-1]
                  lineCosts := st.lineCosts ++ [line] }
    else
      { st with validNeighbor := st.validNeighbor ++ [0]
                lineCosts := st.lineCosts ++ [line] }

def chooseParent {S : Type} [Inhabited S] (E : GrowEnv S) (T : TreeState S)
    (vNearest : ℕ) (xNew : S) (nbh : List ℕ) : ChooseParentState :=
  let init := chooseParentInit E T vNearest xNew
  nbh.foldl (chooseParentStep E T vNearest xNew init.cost) init

/-- One iteration of the rewire loop (grow lines 182-231), processing the
neighbor qn with its cached validNeighbor entry vi and cached lineCosts
entry lc.  The boolean component records checkForSolution. -/
def rewireStep {S : Type} [Inhabited S] (E : GrowEnv S) (xNew : S) (vNew : ℕ)
    (acc : TreeState S × Bool) (t : ℕ × ℤ × ℚ) : TreeState S × Bool :=
  let T := acc.1
  let qn := t.1
  let vi := t.2.1
  let lc := t.2.2
  if some qn = (T.conf vNew).parent then acc
  else
    let line := if E.symmetric then lc else E.motionCost xNew (T.conf qn).state
    let newCost := (T.conf vNew).cost + line
    if newCost < (T.conf qn).cost then
      let valid : Bool :=
        if vi = 1 then true
        else if vi = 0 then
          (!E.useKNearest || E.dist (T.conf qn).state xNew < E.maxDistance) &&
            E.checkMotion xNew (T.conf qn).state
        else false
      if valid then
        let T1 := removeFromParent T qn
        let T2 := setConf T1 qn
          { T1.conf qn with lineCost := line, cost := newCost, parent := some vNew }
        let T3 := appendChild T2 vNew qn
        (updateChildCosts T3.size T3 qn, true)
      else acc
    else acc

def rewire {S : Type} [Inhabited S] (E : GrowEnv S) (xNew : S) (vNew : ℕ)
    (T : TreeState S) (nbh : List ℕ) (valid : List ℤ) (lcs : List ℚ) :
    TreeState S × Bool :=
  (nbh.zip (valid.zip lcs)).foldl (rewireStep E xNew vNew) (T, false)

/-- One iteration of the goal re-scan loop (grow lines 252-263): adopt qk
when its cost beats the running best.  The boolean component records
updatedSolution. -/
def goalScanStep {S : Type} [Inhabited S] (T : TreeState S)
    (acc : Option ℕ × WithTop ℚ × Bool) (qk : ℕ) : Option ℕ × WithTop ℚ × Bool :=
  if ((T.conf qk).cost : WithTop ℚ) < acc.2.1 then
    (some qk, ((T.conf qk).cost : WithTop ℚ), true)
  else acc

/-- The goal bookkeeping of grow (lines 233-270): push the new vertex
onto goalConfigurations when it satisfies the goal; then, when a solution
check is due, either adopt the new vertex as the first goal (when qGoal
was unset) or re-scan all goal configurations for the best cost. -/
def growGoalPhase {S : Type} [Inhabited S] (E : GrowEnv S) (T : TreeState S)
    (vNew : ℕ) (xNew : S) (checkForSolution0 : Bool) : TreeState S :=
  let satisfied := E.goalSat xNew
  let T1 := if satisfied then
      { T with goalConfigurations := T.goalConfigurations ++ [vNew] }
    else T
  let checkForSolution := checkForSolution0 || satisfied
  if checkForSolution then
    if !T1.goalConfigurations.isEmpty && T1.qGoal.isNone then
      { T1 with qGoal := some vNew, bestCost := ((T1.conf vNew).cost : WithTop ℚ)
                hasSolution := true }
    else
      let scan := T1.goalConfigurations.foldl (goalScanStep T1)
        (T1.qGoal, T1.bestCost, false)
      { T1 with qGoal := scan.1, bestCost := scan.2.1
                hasSolution := T1.hasSolution || scan.2.2 }
  else T1

/-- One grow iteration of QRRTStarImpl (lines 107-271) after a successful
steer: choose the minimum-cost parent among the neighbors, insert the new
configuration, rewire the neighbors through it, and run the goal
bookkeeping. -/
def grow {S : Type} [Inhabited S] (E : GrowEnv S) (T : TreeState S)
    (vNearest : ℕ) (xNew : S) (nbh : List ℕ) : TreeState S :=
  let cp := chooseParent E T vNearest xNew nbh
  let vNew := T.size
  let T1 : TreeState S :=
    { T with
      size := T.size + 1
      conf := fun j => if j = vNew then
          { state := xNew, parent := some cp.parent, cost := cp.cost
            lineCost := cp.lineCost, children := [] }
        else T.conf j }
  let T2 := appendChild T1 cp.parent vNew
  let res := rewire E xNew vNew T2 nbh cp.validNeighbor cp.lineCosts
  growGoalPhase E res.1 vNew xNew res.2

/-- Modelled from the spec: init() of the multilevel BundleSpaceGraph
(whose source is not part of this tree) inserts qStart as the first
configuration with identity cost and no parent, with empty goal
bookkeeping and infinite best cost. -/
def initTree {S : Type} (xStart : S) : TreeState S :=
  { size := 1
    conf := fun _ => { state := xStart, parent := none, cost := 0, lineCost := 0, children := [] }
    goalConfigurations := []
    qGoal := none
    bestCost := ⊤
    hasSolution := false }

/-! ### Concrete instances used by witnesses and counterexamples

A one-dimensional rational state space with the absolute-difference
metric, full motion validity, and the goal region consisting of the state
10.  The tree below is the result of growing from the start 0 through a
detour: the sample 20 attached to the root, then the goal sample 10
attached to 20 (its nearest neighbor at that time) with cost 30. -/

def exEnv : GrowEnv ℚ :=
  { motionCost := fun a b => |b - a|
    checkMotion := fun _ _ => true
    dist := fun a b => |b - a|
    goalSat := fun s => decide (s = 10)
    useKNearest := true
    maxDistance := 100
    symmetric := true }

def exTree : TreeState ℚ :=
  { size := 3
    conf := fun i =>
      if i = 0 then { state := 0, parent := none, cost := 0, lineCost := 0, children := [1] }
      else if i = 1 then { state := 20, parent := some 0, cost := 20, lineCost := 20, children := [2] }
      else if i = 2 then { state := 10, parent := some 1, cost := 30, lineCost := 10, children := [] }
      else default
    goalConfigurations := [2]
    qGoal := some 2
    bestCost := ((30 : ℚ) : WithTop ℚ)
    hasSolution := true }

/-- The grow iteration on exTree with sample 16: its nearest vertex is 1
(state 20), and the 3-nearest neighbors in distance order are 1, 2, 0. -/
def exGrow : TreeState ℚ := grow exEnv exTree 1 16 [1, 2, 0]

/-- A sparse graph with two distinct start-goal routes (0-1 and 0-2-1),
every candidate projectable, feasible and visibility-distinct, and
Nhead = 1. -/
def exEnumEnv : EnumEnv ℕ :=
  { simplifyFn := fun p => p
    projectable := fun _ => true
    feasible := fun _ => true
    visible := fun _ _ => false
    stateOf := fun v => v
    edges := [(0, 1), (0, 2), (2, 1)]
    Nhead := 1 }

def exEnumRun : EnumState ℕ :=
  printAllPathsUtil exEnumEnv 10 0 1 [] [] { pathStack := [], failures := 0 }

/-! ### Invariants

RoadmapInv is the disjoint-sets/graph coupling invariant of a level's
roadmap.  TreeInv is the QRRT* tree invariant of the claims: the parent
pointers form an in-tree rooted at qStart (index 0, with identity cost),
every non-root configuration satisfies the cost equation and appears in
its parent's children list, the children lists are exactly the inverse of
the parent pointers, and all line costs and costs are nonnegative (the
path-length objective's motionCost is a distance).  GoalInv is the goal
bookkeeping invariant: qGoal is a minimum-cost member of
goalConfigurations and bestCost is its cost. -/

def RoadmapInv (G : RoadmapGraph) : Prop :=
  (∀ a b : ℕ, G.rep a = G.rep b ↔ ReachIn G.edges a b) ∧
  (∀ x : ℕ, G.numVertices ≤ x → G.rep x = x) ∧
  (∀ v : ℕ, v < G.numVertices → G.rep v < G.numVertices) ∧
  (∀ e ∈ G.edges, e.1 < G.numVertices ∧ e.2 < G.numVertices)

/-- Iterated parent pointers: the vertex reached from i after k steps up
the tree, none when the chain ends earlier. -/
def parentIterate {S : Type} [Inhabited S] (T : TreeState S) : ℕ → ℕ → Option ℕ
  | 0, i => some i
  | Nat.succ k, i =>
    match (T.conf i).parent with
    | none => none
    | some p => parentIterate T k p

/-- The parent chain from i reaches the root (index 0). -/
def reachesRoot {S : Type} [Inhabited S] (T : TreeState S) (i : ℕ) : Prop :=
  ∃ k, parentIterate T k i = some 0

/-- x is a strict descendant of q: some positive number of parent steps
leads from x to q. -/
def StrictDesc {S : Type} [Inhabited S] (T : TreeState S) (q x : ℕ) : Prop :=
  ∃ k, 0 < k ∧ parentIterate T k x = some q

structure TreeInv {S : Type} [Inhabited S] (T : TreeState S) : Prop where
  size_pos : 0 < T.size
  root_parent : (T.conf 0).parent = none
  root_cost : (T.conf 0).cost = 0
  parent_spec : ∀ i, i < T.size → i ≠ 0 → ∃ p, (T.conf i).parent = some p ∧
    p < T.size ∧ (T.conf i).cost = (T.conf p).cost + (T.conf i).lineCost ∧
    i ∈ (T.conf p).children
  children_spec : ∀ p, p < T.size → ∀ j ∈ (T.conf p).children,
    j < T.size ∧ (T.conf j).parent = some p
  children_nodup : ∀ p, p < T.size → (T.conf p).children.Nodup
  lineCost_nonneg : ∀ i, i < T.size → 0 ≤ (T.conf i).lineCost
  cost_nonneg : ∀ i, i < T.size → 0 ≤ (T.conf i).cost
  reaches_root : ∀ i, i < T.size → reachesRoot T i

/-- The structural part of the tree invariant (no cost equations): used
for states in the middle of a rewire, where the subtree costs are stale
until updateChildCosts finishes. -/
structure TreeStruct {S : Type} [Inhabited S] (T : TreeState S) : Prop where
  size_pos : 0 < T.size
  root_parent : (T.conf 0).parent = none
  parent_spec : ∀ i, i < T.size → i ≠ 0 → ∃ p, (T.conf i).parent = some p ∧
    p < T.size ∧ i ∈ (T.conf p).children
  children_spec : ∀ p, p < T.size → ∀ j ∈ (T.conf p).children,
    j < T.size ∧ (T.conf j).parent = some p
  children_nodup : ∀ p, p < T.size → (T.conf p).children.Nodup
  reaches_root : ∀ i, i < T.size → reachesRoot T i

/-- Two tree states with the same size and the same non-cost fields
everywhere (updateChildCosts only rewrites costs). -/
def StructEq {S : Type} [Inhabited S] (T2 T : TreeState S) : Prop :=
  T2.size = T.size ∧ ∀ j, (T2.conf j).parent = (T.conf j).parent ∧
    (T2.conf j).children = (T.conf j).children ∧
    (T2.conf j).lineCost = (T.conf j).lineCost ∧
    (T2.conf j).state = (T.conf j).state

structure GoalInv {S : Type} [Inhabited S] (T : TreeState S) : Prop where
  none_empty : T.qGoal = none → T.goalConfigurations = []
  goal_spec : ∀ g, T.qGoal = some g → g ∈ T.goalConfigurations ∧
    T.bestCost = ((T.conf g).cost : WithTop ℚ) ∧
    ∀ k ∈ T.goalConfigurations, (T.conf g).cost ≤ (T.conf k).cost
  mem_lt : ∀ k ∈ T.goalConfigurations, k < T.size

/-- The relink part of one firing rewire iteration (grow lines 216-225),
named for the proofs: remove qn from its old parent's children, overwrite
its lineCost, cost and parent with the route through the new vertex, and
append it to the new vertex's children list. -/
def relinkTree {S : Type} [Inhabited S] (T : TreeState S) (qn vNew : ℕ)
    (line newCost : ℚ) : TreeState S :=
  appendChild (setConf (removeFromParent T qn) qn
    { (removeFromParent T qn).conf qn with
      lineCost := line, cost := newCost, parent := some vNew }) vNew qn

/-- A full firing rewire iteration: the relink followed by
updateChildCosts on the rewired vertex (arena-size fuel). -/
def rewireApply {S : Type} [Inhabited S] (T : TreeState S) (qn vNew : ℕ)
    (line newCost : ℚ) : TreeState S :=
  updateChildCosts (relinkTree T qn vNew line newCost).size
    (relinkTree T qn vNew line newCost) qn

/-- The invariant carried through the rewire loop, relative to the tree
T0 the loop started from: the tree invariant holds, size, every state,
the root configuration and the goal bookkeeping fields are unchanged,
costs have not increased, and if checkForSolution is still false the
tree is untouched. -/
def RewireMaintains {S : Type} [Inhabited S] (T0 : TreeState S)
    (r : TreeState S × Bool) : Prop :=
  TreeInv r.1 ∧ r.1.size = T0.size ∧
  (∀ j, (r.1.conf j).state = (T0.conf j).state) ∧
  (∀ j, j < T0.size → (r.1.conf j).cost ≤ (T0.conf j).cost) ∧
  (r.1.conf 0).parent = none ∧ (r.1.conf 0).cost = 0 ∧
  (r.1.conf 0).lineCost = (T0.conf 0).lineCost ∧
  r.1.goalConfigurations = T0.goalConfigurations ∧
  r.1.qGoal = T0.qGoal ∧ r.1.bestCost = T0.bestCost ∧
  r.1.hasSolution = T0.hasSolution ∧
  (r.2 = false → r.1 = T0)

/-! ## Theorems -/

/-- C9: for every name outside the known set the strategy setter throws
(aborting configuration), and every known name installs exactly the named
strategy: geodesic/shortestpath for the metric, uniform/greedy/exponential
for the importance, randomvertex/randomedge for the graph sampler, and
geometric/dynamic for the propagator. -/
theorem strategy_setters_exhaustive :
    (∀ s : String,
      (∃ k, setPropagator s = Except.ok k) ↔ s = "geometric" ∨ s = "dynamic") ∧
    (∀ s : String,
      (∃ k, setMetric s = Except.ok k) ↔ s = "geodesic" ∨ s = "shortestpath") ∧
    (∀ s : String,
      (∃ k, setImportance s = Except.ok k) ↔
        s = "uniform" ∨ s = "greedy" ∨ s = "exponential") ∧
    (∀ s : String,
      (∃ k, setGraphSampler s = Except.ok k) ↔ s = "randomvertex" ∨ s = "randomedge") ∧
    (∀ s : String,
      setPropagator s = Except.error "Unknown Propagator" ↔
        ¬(s = "geometric" ∨ s = "dynamic")) ∧
    (∀ s : String,
      setMetric s = Except.error "Unknown Metric" ↔
        ¬(s = "geodesic" ∨ s = "shortestpath")) ∧
    (∀ s : String,
      setImportance s = Except.error "Unknown Importance" ↔
        ¬(s = "uniform" ∨ s = "greedy" ∨ s = "exponential")) ∧
    (∀ s : String,
      setGraphSampler s = Except.error "Unknown Graph Sampler" ↔
        ¬(s = "randomvertex" ∨ s = "randomedge")) ∧
    setPropagator "geometric" = Except.ok PropagatorKind.geometric ∧
    setPropagator "dynamic" = Except.ok PropagatorKind.dynamic ∧
    setMetric "geodesic" = Except.ok MetricKind.geodesic ∧
    setMetric "shortestpath" = Except.ok MetricKind.shortestpath ∧
    setImportance "uniform" = Except.ok ImportanceKind.uniform ∧
    setImportance "greedy" = Except.ok ImportanceKind.greedy ∧
    setImportance "exponential" = Except.ok ImportanceKind.exponential ∧
    setGraphSampler "randomvertex" = Except.ok GraphSamplerKind.randomvertex ∧
    setGraphSampler "randomedge" = Except.ok GraphSamplerKind.randomedge := by
  refine ⟨?_, ?_, ?_, ?_, ?_, ?_, ?_, ?_,
    rfl, by simp [setPropagator], rfl, by simp [setMetric], rfl, by simp [setImportance],
    by simp [setImportance], rfl, by simp [setGraphSampler]⟩
  · intro s; unfold setPropagator; split_ifs <;> simp_all
  · intro s; unfold setMetric; split_ifs <;> simp_all
  · intro s; unfold setImportance; split_ifs <;> simp_all
  · intro s; unfold setGraphSampler; split_ifs <;> simp_all
  · intro s; unfold setPropagator; split_ifs <;> simp_all
  · intro s; unfold setMetric; split_ifs <;> simp_all
  · intro s; unfold setImportance; split_ifs <;> simp_all
  · intro s; unfold setGraphSampler; split_ifs <;> simp_all

/-- C10: on a level that already has a solution the random-sample step
always invokes the sampler and never copies the goal state; on a level
without a solution the goal state is used as the sample exactly when the
uniform draw falls below goalBias.  QMPImpl::grow performs the identical
decision. -/
theorem goal_bias_only_without_solution :
    (∀ s goalBias : ℚ,
      sampleBundleGoalBias true s goalBias = SampleAction.invokeSampler) ∧
    (∀ s goalBias : ℚ,
      sampleBundleGoalBias false s goalBias = SampleAction.copyGoal ↔ s < goalBias) ∧
    (∀ hs : Bool, ∀ s goalBias : ℚ,
      qmpGrowSampleAction hs s goalBias = sampleBundleGoalBias hs s goalBias) := by
  refine ⟨fun s g => rfl, ?_, fun hs s g => rfl⟩
  intro s g
  unfold sampleBundleGoalBias
  split_ifs with h <;> simp_all

/-- C6 counterexample: the sample 0 has the sparse neighbor 0 within
sparseDelta = 1 (the graph neighborhood is [0]), yet because that
neighbor is not visible (checkMotion fails), the coverage test still adds
the sample, contradicting the claim that a sample with a sparse neighbor
within sparseDelta is never added. -/
theorem coverage_counterexample :
    (findGraphNeighbors (fun a b : ℚ => |b - a|) (fun _ _ => false) 1 [0] 0).1 = [0] ∧
    coverageAdds (fun a b : ℚ => |b - a|) (fun _ _ => false) 1 [0] 0 = true := by
  constructor <;>
    norm_num [findGraphNeighbors, coverageAdds, checkAddCoverage]

/-- C6 amended: the coverage test fires exactly when the sample has no
visible sparse neighbor within sparseDelta (a neighbor within the radius
that fails the motion check does not block the add); in particular a
sample with no sparse neighbor within sparseDelta at all is added as a
guard. -/
theorem coverage_adds_iff_no_visible_neighbor {S : Type}
    (dist : S → S → ℚ) (cm : S → S → Bool) (sparseDelta : ℚ)
    (sparseVerts : List S) (q : S) :
    (coverageAdds dist cm sparseDelta sparseVerts q = true ↔
      ∀ v ∈ sparseVerts, ¬(dist q v ≤ sparseDelta ∧ cm q v = true)) ∧
    ((∀ v ∈ sparseVerts, ¬ dist q v ≤ sparseDelta) →
      coverageAdds dist cm sparseDelta sparseVerts q = true) := by
  have h : coverageAdds dist cm sparseDelta sparseVerts q = true ↔
      ∀ v ∈ sparseVerts, ¬(dist q v ≤ sparseDelta ∧ cm q v = true) := by
    unfold coverageAdds checkAddCoverage findGraphNeighbors
    simp only [List.isEmpty_iff, List.filter_filter, List.filter_eq_nil_iff,
      Bool.and_eq_true, decide_eq_true_eq]
    constructor
    · intro hh v hv hc
      exact hh v hv ⟨hc.2, hc.1⟩
    · intro hh v hv hc
      exact hh v hv ⟨hc.2, hc.1⟩
  exact ⟨h, fun hnone => h.2 (fun v hv hc => hnone v hv hc.1)⟩

/-- C6 amended, witness: a sample with no sparse neighbor within the
radius is added as a guard. -/
theorem coverage_adds_iff_no_visible_neighbor_witness :
    coverageAdds (fun a b : ℚ => |b - a|) (fun _ _ => true) 1 [5] 0 = true :=
  (coverage_adds_iff_no_visible_neighbor (fun a b : ℚ => |b - a|)
    (fun _ _ => true) 1 [5] 0).2 (by norm_num)

/-- C4: the planner's rewiring constants and neighbor-set requests match
the spec formulas: kRRT = 2^(d+1) e (1+1/d) with k = ceil(kRRT ln(V+1)),
and rRRT = (2(1+1/d) mu(Xfree)/zeta_d)^(1/d) with
r = min(maxDistance, rRRT (ln(V+1)/(V+1))^(1/d)), for a tree holding V
vertices, d the bundle-space dimension. -/
theorem neighbor_computation_matches_spec :
    (∀ d : ℝ, k_rrt_Constant d = kRRT_spec d) ∧
    (∀ d mu zeta : ℝ, r_rrt_Constant d mu zeta = rRRT_spec d mu zeta) ∧
    (∀ d : ℝ, ∀ V : ℕ, getNearestNeighbors_k (k_rrt_Constant d) V = neighborCount_spec d V) ∧
    (∀ maxDistance d mu zeta : ℝ, ∀ V : ℕ,
      getNearestNeighbors_r maxDistance (r_rrt_Constant d mu zeta) d V =
        neighborRadius_spec maxDistance d mu zeta V) := by
  have hr : ∀ d mu zeta : ℝ, r_rrt_Constant d mu zeta = rRRT_spec d mu zeta := by
    intro d mu zeta
    unfold r_rrt_Constant rRRT_spec
    congr 1
    ring
  refine ⟨fun d => rfl, hr, fun d V => rfl, ?_⟩
  intro maxDistance d mu zeta V
  unfold getNearestNeighbors_r neighborRadius_spec
  rw [hr]

/-! Helper lemmas about pushPathToStack and the enumeration DFS. -/

theorem pushPathToStack_length_le {S : Type} (E : EnumEnv S) (st : EnumState S)
    (p : List S) :
    (pushPathToStack E st p).pathStack.length ≤ st.pathStack.length + 1 := by
  simp only [pushPathToStack]
  split_ifs <;> simp

theorem pushPathToStack_rejects_visible {S : Type} (E : EnumEnv S) (st : EnumState S)
    (p : List S)
    (h : st.pathStack.any (fun pathk => E.visible (E.simplifyFn p) pathk) = true) :
    (pushPathToStack E st p).pathStack = st.pathStack := by
  simp only [pushPathToStack]
  split_ifs with h1 h2 h3
  · rfl
  · rfl
  · rw [List.isEmpty_iff] at h3
    rw [h3] at h
    simp at h
  · rfl

theorem pushPathToStack_pairwise {S : Type} (E : EnumEnv S) (st : EnumState S)
    (p : List S)
    (h : st.pathStack.Pairwise fun a b => E.visible b a = false) :
    (pushPathToStack E st p).pathStack.Pairwise fun a b => E.visible b a = false := by
  simp only [pushPathToStack]
  split_ifs with h1 h2 h3 h4
  · exact h
  · exact h
  · rw [List.isEmpty_iff] at h3
    rw [h3]
    simp
  · exact h
  · rw [List.pairwise_append]
    refine ⟨h, by simp, ?_⟩
    intro a ha b hb
    simp only [List.mem_singleton] at hb
    subst hb
    have h4' : st.pathStack.any (fun pathk => E.visible (E.simplifyFn p) pathk) = false := by
      simpa using h4
    simpa using List.any_eq_false.mp h4' a ha

theorem dfsNeighborLoop_stack_bound {S : Type} (E : EnumEnv S) (fuel : ℕ)
    (hP : ∀ u d visited path st,
      (printAllPathsUtil E fuel u d visited path st).pathStack.length ≤
        max st.pathStack.length (E.Nhead + 1)) :
    ∀ nbrs d visited path st,
      (dfsNeighborLoop E fuel d visited path nbrs st).pathStack.length ≤
        max st.pathStack.length (E.Nhead + 1) := by
  intro nbrs
  induction nbrs with
  | nil =>
    intro d visited path st
    simp only [dfsNeighborLoop]
    exact le_max_left _ _
  | cons v vs ih =>
    intro d visited path st
    simp only [dfsNeighborLoop]
    split_ifs with hv hbig
    · exact ih d visited path st
    · exact hP v d visited path st
    · have h1 := hP v d visited path st
      have h2 := ih d visited path (printAllPathsUtil E fuel v d visited path st)
      omega

theorem printAllPathsUtil_stack_bound {S : Type} (E : EnumEnv S) :
    ∀ fuel u d visited path st,
      (printAllPathsUtil E fuel u d visited path st).pathStack.length ≤
        max st.pathStack.length (E.Nhead + 1) := by
  intro fuel
  induction fuel with
  | zero =>
    intro u d visited path st
    simp only [printAllPathsUtil]
    exact le_max_left _ _
  | succ f ih =>
    intro u d visited path st
    simp only [printAllPathsUtil]
    split_ifs with h1 h2 h3
    · exact le_max_left _ _
    · exact le_max_left _ _
    · have := pushPathToStack_length_le E st ((path ++ [u]).map E.stateOf)
      omega
    · exact dfsNeighborLoop_stack_bound E f ih _ _ _ _ _

theorem dfsNeighborLoop_stack_preserve {S : Type} (E : EnumEnv S)
    (P : List (List S) → Prop) (fuel : ℕ)
    (hvisit : ∀ u d visited path st, P st.pathStack →
      P (printAllPathsUtil E fuel u d visited path st).pathStack) :
    ∀ nbrs d visited path st, P st.pathStack →
      P (dfsNeighborLoop E fuel d visited path nbrs st).pathStack := by
  intro nbrs
  induction nbrs with
  | nil =>
    intro d visited path st hst
    simpa only [dfsNeighborLoop] using hst
  | cons v vs ih =>
    intro d visited path st hst
    simp only [dfsNeighborLoop]
    split_ifs with hv hbig
    · exact ih d visited path st hst
    · exact hvisit v d visited path st hst
    · exact ih d visited path _ (hvisit v d visited path st hst)

theorem printAllPathsUtil_stack_preserve {S : Type} (E : EnumEnv S)
    (P : List (List S) → Prop)
    (hpush : ∀ st p, P st.pathStack → P (pushPathToStack E st p).pathStack) :
    ∀ fuel u d visited path st, P st.pathStack →
      P (printAllPathsUtil E fuel u d visited path st).pathStack := by
  intro fuel
  induction fuel with
  | zero =>
    intro u d visited path st hst
    simpa only [printAllPathsUtil] using hst
  | succ f ih =>
    intro u d visited path st hst
    simp only [printAllPathsUtil]
    split_ifs with h1 h2 h3
    · exact hst
    · exact hst
    · exact hpush st _ hst
    · exact dfsNeighborLoop_stack_preserve E P f ih _ _ _ _ _ hst

/-- C7 counterexample: with Nhead = 1 and two distinct start-goal routes,
the DFS pushes a second path although one path (Nhead many) is already on
the stack: the stop test fires only once the stack holds strictly more
than Nhead paths.  exEnumRun starts from an empty stack and zero
rejections and ends with 2 stacked paths. -/
theorem path_enumeration_nhead_counterexample :
    exEnumEnv.Nhead = 1 ∧ exEnumRun.pathStack = [[0, 1], [0, 2, 1]] ∧
    exEnumRun.pathStack.length = 2 := by
  refine ⟨rfl, ?_, ?_⟩ <;>
    simp [exEnumRun, exEnumEnv, printAllPathsUtil, dfsNeighborLoop, pushPathToStack,
      outNeighbors]

/-- C7 amended: the DFS returns immediately once the stack holds more
than Nhead paths (so the stack can reach, but never exceed, Nhead + 1
paths) or once more than 10 pushes have been rejected over the whole
enumeration (the rejection counter is cumulative, reset only at the start
of enumerateAllPaths); and the path-stack head handed to the next level
always holds at most Nhead paths. -/
theorem path_enumeration_bounds {S : Type} (E : EnumEnv S) (fuel u d : ℕ)
    (visited path : List ℕ) (st : EnumState S) :
    (st.pathStack.length > E.Nhead → printAllPathsUtil E fuel u d visited path st = st) ∧
    (st.failures > 10 → printAllPathsUtil E fuel u d visited path st = st) ∧
    (printAllPathsUtil E fuel u d visited path st).pathStack.length ≤
      max st.pathStack.length (E.Nhead + 1) ∧
    (pathStackHead E (printAllPathsUtil E fuel u d visited path st)).length ≤ E.Nhead := by
  refine ⟨?_, ?_, printAllPathsUtil_stack_bound E fuel u d visited path st, ?_⟩
  · intro h
    cases fuel with
    | zero => simp only [printAllPathsUtil]
    | succ f => simp only [printAllPathsUtil]; simp [h]
  · intro h
    cases fuel with
    | zero => simp only [printAllPathsUtil]
    | succ f =>
      simp only [printAllPathsUtil]
      split_ifs with h1
      · rfl
      · rfl
  · simp [pathStackHead]

/-- C7 amended, witness: on the concrete sparse graph the DFS leaves a
state with an over-full stack untouched, and the bound on the final stack
holds for the run from the empty state. -/
theorem path_enumeration_bounds_witness :
    printAllPathsUtil exEnumEnv 5 0 1 [] []
        { pathStack := [[0, 1], [0, 2, 1]], failures := 0 } =
      { pathStack := [[0, 1], [0, 2, 1]], failures := 0 } ∧
    printAllPathsUtil exEnumEnv 5 0 1 [] [] { pathStack := [], failures := 11 } =
      { pathStack := [], failures := 11 } ∧
    (printAllPathsUtil exEnumEnv 10 0 1 [] []
        { pathStack := [], failures := 0 }).pathStack.length ≤
      max ([] : List (List ℕ)).length (exEnumEnv.Nhead + 1) := by
  refine ⟨(path_enumeration_bounds exEnumEnv 5 0 1 [] [] _).1 (by decide),
    (path_enumeration_bounds exEnumEnv 5 0 1 [] [] _).2.1 (by decide),
    (path_enumeration_bounds exEnumEnv 10 0 1 [] [] _).2.2.1⟩

/-- C8: pushPathToStack leaves the stack unchanged whenever the
path-visibility checker finds the (simplified) candidate equivalent to
some path already on the stack; consequently, with a symmetric visibility
checker, the stack stays pairwise visibility-inequivalent throughout the
enumeration DFS: no two stacked paths are visible to each other. -/
theorem path_stack_pairwise_distinct {S : Type} (E : EnumEnv S)
    (hsym : ∀ a b, E.visible a b = E.visible b a)
    (fuel u d : ℕ) (visited path : List ℕ) (st : EnumState S)
    (hst : st.pathStack.Pairwise fun a b => E.visible b a = false) :
    (∀ st2 p, st2.pathStack.any (fun pathk => E.visible (E.simplifyFn p) pathk) = true →
      (pushPathToStack E st2 p).pathStack = st2.pathStack) ∧
    (printAllPathsUtil E fuel u d visited path st).pathStack.Pairwise
      (fun a b => E.visible a b = false ∧ E.visible b a = false) := by
  refine ⟨fun st2 p h => pushPathToStack_rejects_visible E st2 p h, ?_⟩
  have h1 := printAllPathsUtil_stack_preserve E
    (fun l => l.Pairwise fun a b => E.visible b a = false)
    (fun st2 p hp => pushPathToStack_pairwise E st2 p hp)
    fuel u d visited path st hst
  exact List.Pairwise.imp (fun h => ⟨by rw [hsym]; exact h, h⟩) h1

/-- C8 witness: the pairwise inequivalence of the stacked paths for the
concrete enumeration run (whose checker never reports visibility). -/
theorem path_stack_pairwise_distinct_witness :
    (printAllPathsUtil exEnumEnv 10 0 1 [] []
        { pathStack := [], failures := 0 }).pathStack.Pairwise
      (fun a b => exEnumEnv.visible a b = false ∧ exEnumEnv.visible b a = false) :=
  (path_stack_pairwise_distinct exEnumEnv (fun _ _ => rfl) 10 0 1 [] []
    { pathStack := [], failures := 0 } List.Pairwise.nil).2

/-! Helper lemmas about undirected reachability in an edge list. -/

theorem adjacentIn_symmetric (es : List (ℕ × ℕ)) :
    ∀ a b : ℕ, adjacentIn es a b → adjacentIn es b a :=
  fun _ _ h => h.elim Or.inr Or.inl

theorem reachIn_symm {es : List (ℕ × ℕ)} {a b : ℕ} (h : ReachIn es a b) :
    ReachIn es b a :=
  Relation.ReflTransGen.symmetric (fun _ _ hxy => adjacentIn_symmetric es _ _ hxy) h

theorem reachIn_mono {es es2 : List (ℕ × ℕ)} (hsub : ∀ e, e ∈ es2 → e ∈ es)
    {a b : ℕ} (h : ReachIn es2 a b) : ReachIn es a b := by
  induction h with
  | refl => exact Relation.ReflTransGen.refl
  | tail _ hbc ih =>
    exact ih.tail (hbc.elim (fun m => Or.inl (hsub _ m)) (fun m => Or.inr (hsub _ m)))

theorem reachIn_nil {a b : ℕ} : ReachIn [] a b ↔ a = b := by
  constructor
  · intro h
    induction h with
    | refl => rfl
    | tail _ h2 _ => rcases h2 with h3 | h3 <;> simp at h3
  · rintro rfl
    exact Relation.ReflTransGen.refl

theorem adjacentIn_reach {es : List (ℕ × ℕ)} {a b : ℕ} (h : adjacentIn es a b) :
    ReachIn es a b :=
  Relation.ReflTransGen.single h

theorem reachIn_cons {a0 b0 : ℕ} {es : List (ℕ × ℕ)} {x y : ℕ} :
    ReachIn ((a0, b0) :: es) x y ↔
      ReachIn es x y ∨ (ReachIn es x a0 ∧ ReachIn es b0 y) ∨
        (ReachIn es x b0 ∧ ReachIn es a0 y) := by
  constructor
  · intro h
    induction h with
    | refl => exact Or.inl Relation.ReflTransGen.refl
    | @tail m c _ hstep ih =>
      have hs : ReachIn es m c ∨ (m = a0 ∧ c = b0) ∨ (m = b0 ∧ c = a0) := by
        rcases hstep with hm | hm
        · rcases List.mem_cons.mp hm with he | he
          · rcases Prod.mk.injEq .. ▸ he with ⟨h1, h2⟩
            exact Or.inr (Or.inl ⟨h1, h2⟩)
          · exact Or.inl (adjacentIn_reach (Or.inl he))
        · rcases List.mem_cons.mp hm with he | he
          · rcases Prod.mk.injEq .. ▸ he with ⟨h1, h2⟩
            exact Or.inr (Or.inr ⟨h2, h1⟩)
          · exact Or.inl (adjacentIn_reach (Or.inr he))
      rcases ih with h1 | ⟨h1, h2⟩ | ⟨h1, h2⟩ <;>
        rcases hs with hs | ⟨hs1, hs2⟩ | ⟨hs1, hs2⟩
      · exact Or.inl (h1.trans hs)
      · subst hs1; subst hs2
        exact Or.inr (Or.inl ⟨h1, Relation.ReflTransGen.refl⟩)
      · subst hs1; subst hs2
        exact Or.inr (Or.inr ⟨h1, Relation.ReflTransGen.refl⟩)
      · exact Or.inr (Or.inl ⟨h1, h2.trans hs⟩)
      · subst hs1; subst hs2
        exact Or.inr (Or.inl ⟨h1, Relation.ReflTransGen.refl⟩)
      · subst hs1; subst hs2
        exact Or.inl h1
      · exact Or.inr (Or.inr ⟨h1, h2.trans hs⟩)
      · subst hs1; subst hs2
        exact Or.inl h1
      · subst hs1; subst hs2
        exact Or.inr (Or.inr ⟨h1, Relation.ReflTransGen.refl⟩)
  · have hhead : adjacentIn ((a0, b0) :: es) a0 b0 := Or.inl (List.mem_cons_self _ _)
    have hsub : ∀ e, e ∈ es → e ∈ (a0, b0) :: es := fun e he => List.mem_cons_of_mem _ he
    rintro (h | ⟨h1, h2⟩ | ⟨h1, h2⟩)
    · exact reachIn_mono hsub h
    · exact ((reachIn_mono hsub h1).tail hhead).trans (reachIn_mono hsub h2)
    · exact ((reachIn_mono hsub h1).tail (adjacentIn_symmetric _ _ _ hhead)).trans
        (reachIn_mono hsub h2)

theorem mem_removeAll {es : List (ℕ × ℕ)} {v1 v2 : ℕ} {e : ℕ × ℕ} :
    e ∈ removeAllEdgesBetween es v1 v2 ↔
      e ∈ es ∧ ¬((e.1 = v1 ∧ e.2 = v2) ∨ (e.1 = v2 ∧ e.2 = v1)) := by
  simp only [removeAllEdgesBetween, List.mem_filter, Bool.not_eq_true', Bool.or_eq_false_iff,
    Bool.and_eq_false_iff, beq_eq_false_iff_ne, ne_eq, not_or]
  tauto

theorem removeAll_idem (es : List (ℕ × ℕ)) (v1 v2 : ℕ) :
    removeAllEdgesBetween (removeAllEdgesBetween es v1 v2) v1 v2 =
      removeAllEdgesBetween es v1 v2 := by
  simp [removeAllEdgesBetween, List.filter_filter]

theorem outNeighbors_adj {es : List (ℕ × ℕ)} {v x : ℕ} (h : x ∈ outNeighbors es v) :
    adjacentIn es v x := by
  simp only [outNeighbors, List.mem_filterMap] at h
  obtain ⟨e, he, hf⟩ := h
  by_cases h1 : e.1 = v
  · rw [if_pos h1] at hf
    have h2 : e.2 = x := by injection hf
    left
    have : e = (v, x) := by rw [← h1, ← h2]
    rwa [← this]
  · rw [if_neg h1] at hf
    by_cases h2 : e.2 = v
    · rw [if_pos h2] at hf
      have h3 : e.1 = x := by injection hf
      right
      have : e = (x, v) := by rw [← h2, ← h3]
      rwa [← this]
    · rw [if_neg h2] at hf
      exact absurd hf (by simp)

theorem commonNeighbors_spec {es : List (ℕ × ℕ)} {v1 v2 v3 : ℕ}
    (h : v3 ∈ commonNeighbors es v1 v2) :
    adjacentIn es v1 v3 ∧ adjacentIn es v3 v2 ∧ v3 ≠ v1 ∧ v3 ≠ v2 := by
  simp only [commonNeighbors, List.mem_dedup, List.mem_filter, List.contains_iff_exists_mem_beq,
    beq_iff_eq, decide_eq_true_eq] at h
  obtain ⟨⟨h1, hv3⟩, x, hx, hxeq⟩ := h
  subst hxeq
  obtain ⟨hx1, hx2⟩ := hx
  exact ⟨outNeighbors_adj h1, adjacentIn_symmetric _ _ _ (outNeighbors_adj hx1), hx2, hv3⟩

theorem reachIn_removeAll_iff {es : List (ℕ × ℕ)} {v1 v2 v3 : ℕ}
    (h13 : adjacentIn es v1 v3) (h32 : adjacentIn es v3 v2)
    (hne1 : v3 ≠ v1) (hne2 : v3 ≠ v2) (x y : ℕ) :
    ReachIn es x y ↔ ReachIn (removeAllEdgesBetween es v1 v2) x y := by
  have e13 : adjacentIn (removeAllEdgesBetween es v1 v2) v1 v3 := by
    rcases h13 with hm | hm
    · exact Or.inl (mem_removeAll.mpr ⟨hm, by rintro (⟨_, h⟩ | ⟨h, h2⟩) <;> simp_all⟩)
    · exact Or.inr (mem_removeAll.mpr ⟨hm, by rintro (⟨h, h2⟩ | ⟨h2, h⟩) <;> simp_all⟩)
  have e32 : adjacentIn (removeAllEdgesBetween es v1 v2) v3 v2 := by
    rcases h32 with hm | hm
    · exact Or.inl (mem_removeAll.mpr ⟨hm, by rintro (⟨h, _⟩ | ⟨h, h2⟩) <;> simp_all⟩)
    · exact Or.inr (mem_removeAll.mpr ⟨hm, by rintro (⟨h, h2⟩ | ⟨h2, h⟩) <;> simp_all⟩)
  constructor
  · intro h
    induction h with
    | refl => exact Relation.ReflTransGen.refl
    | @tail m c _ hstep ih =>
      rcases hstep with hm | hm
      · by_cases hp : (m = v1 ∧ c = v2) ∨ (m = v2 ∧ c = v1)
        · rcases hp with ⟨rfl, rfl⟩ | ⟨rfl, rfl⟩
          · exact (ih.tail e13).tail e32
          · exact (ih.tail (adjacentIn_symmetric _ _ _ e32)).tail
              (adjacentIn_symmetric _ _ _ e13)
        · exact ih.tail (Or.inl (mem_removeAll.mpr ⟨hm, hp⟩))
      · by_cases hp : (c = v1 ∧ m = v2) ∨ (c = v2 ∧ m = v1)
        · rcases hp with ⟨rfl, rfl⟩ | ⟨rfl, rfl⟩
          · exact (ih.tail (adjacentIn_symmetric _ _ _ e32)).tail
              (adjacentIn_symmetric _ _ _ e13)
          · exact (ih.tail e13).tail e32
        · exact ih.tail (Or.inr (mem_removeAll.mpr ⟨hm, hp⟩))
  · exact reachIn_mono (fun e he => (mem_removeAll.mp he).1)

theorem reductionFold_stay (visCheck : ℕ → ℕ → ℕ → Bool) (v1 v2 : ℕ)
    (es : List (ℕ × ℕ)) (l : List ℕ) :
    l.foldl (fun es2 v3 => if visCheck v1 v3 v2 then removeAllEdgesBetween es2 v1 v2 else es2)
        (removeAllEdgesBetween es v1 v2) = removeAllEdgesBetween es v1 v2 := by
  induction l with
  | nil => rfl
  | cons c cs ih =>
    simp only [List.foldl_cons]
    by_cases hc : visCheck v1 c v2 = true
    · rw [if_pos hc, removeAll_idem]
      exact ih
    · rw [if_neg hc]
      exact ih

theorem reductionFold_cases (visCheck : ℕ → ℕ → ℕ → Bool) (v1 v2 : ℕ)
    (l : List ℕ) (es : List (ℕ × ℕ)) :
    l.foldl (fun es2 v3 => if visCheck v1 v3 v2 then removeAllEdgesBetween es2 v1 v2 else es2)
        es = es ∨
    ((∃ v3 ∈ l, visCheck v1 v3 v2 = true) ∧
      l.foldl (fun es2 v3 =>
        if visCheck v1 v3 v2 then removeAllEdgesBetween es2 v1 v2 else es2) es =
        removeAllEdgesBetween es v1 v2) := by
  induction l with
  | nil => exact Or.inl rfl
  | cons c cs ih =>
    simp only [List.foldl_cons]
    by_cases hc : visCheck v1 c v2 = true
    · right
      rw [if_pos hc]
      exact ⟨⟨c, List.mem_cons_self _ _, hc⟩, reductionFold_stay visCheck v1 v2 es cs⟩
    · rw [if_neg hc]
      rcases ih with h | ⟨⟨v3, hv3, hvc⟩, h⟩
      · exact Or.inl h
      · exact Or.inr ⟨⟨v3, List.mem_cons_of_mem _ hv3, hvc⟩, h⟩

/-! Preservation of RoadmapInv by each graph operation. -/

theorem roadmapInv_init : RoadmapInv initialRoadmap := by
  refine ⟨?_, fun x _ => rfl, by simp [initialRoadmap], by simp [initialRoadmap]⟩
  intro a b
  simpa [initialRoadmap] using reachIn_nil.symm

theorem roadmapInv_addVertex {G : RoadmapGraph} (h : RoadmapInv G) :
    RoadmapInv (addConfigurationGraph G) := by
  obtain ⟨h1, h2, h3, h4⟩ := h
  have hm : G.rep G.numVertices = G.numVertices := h2 _ le_rfl
  have hrep : ∀ x, (addConfigurationGraph G).rep x = G.rep x := by
    intro x
    simp only [addConfigurationGraph]
    split_ifs with hx
    · subst hx
      exact hm.symm
    · rfl
  refine ⟨?_, ?_, ?_, ?_⟩
  · intro a b
    rw [hrep a, hrep b]
    exact h1 a b
  · intro x hx
    rw [hrep x]
    exact h2 x (by simp only [addConfigurationGraph] at hx; omega)
  · intro v hv
    rw [hrep v]
    simp only [addConfigurationGraph] at hv ⊢
    by_cases hvm : v < G.numVertices
    · exact Nat.lt_succ_of_lt (h3 v hvm)
    · have : v = G.numVertices := by omega
      subst this
      omega
  · intro e he
    have := h4 e he
    simp only [addConfigurationGraph]
    omega

theorem roadmapInv_addEdge {G : RoadmapGraph} {a b : ℕ} (h : RoadmapInv G)
    (ha : a < G.numVertices) (hb : b < G.numVertices) :
    RoadmapInv (addEdgeGraph G a b) := by
  obtain ⟨h1, h2, h3, h4⟩ := h
  refine ⟨?_, ?_, ?_, ?_⟩
  · intro x y
    show (if G.rep x = G.rep b then G.rep a else G.rep x) =
        (if G.rep y = G.rep b then G.rep a else G.rep y) ↔
      ReachIn ((a, b) :: G.edges) x y
    rw [reachIn_cons]
    by_cases hx : G.rep x = G.rep b <;> by_cases hy : G.rep y = G.rep b
    · rw [if_pos hx, if_pos hy]
      simp only [eq_self_iff_true, true_iff]
      exact Or.inl (((h1 x b).mp hx).trans (reachIn_symm ((h1 y b).mp hy)))
    · rw [if_pos hx, if_neg hy]
      constructor
      · intro hay
        exact Or.inr (Or.inr ⟨(h1 x b).mp hx, (h1 a y).mp hay⟩)
      · rintro (hr | ⟨hr1, hr2⟩ | ⟨hr1, hr2⟩)
        · exact absurd (((h1 x y).mpr hr).symm.trans hx) hy
        · exact absurd ((h1 b y).mpr hr2).symm hy
        · exact (h1 a y).mpr hr2
    · rw [if_neg hx, if_pos hy]
      constructor
      · intro hxa
        exact Or.inr (Or.inl ⟨(h1 x a).mp hxa, reachIn_symm ((h1 y b).mp hy)⟩)
      · rintro (hr | ⟨hr1, hr2⟩ | ⟨hr1, hr2⟩)
        · exact absurd (((h1 x y).mpr hr).trans hy) hx
        · exact (h1 x a).mpr hr1
        · exact absurd (((h1 x b).mpr hr1)) hx
    · rw [if_neg hx, if_neg hy]
      constructor
      · intro hxy
        exact Or.inl ((h1 x y).mp hxy)
      · rintro (hr | ⟨hr1, hr2⟩ | ⟨hr1, hr2⟩)
        · exact (h1 x y).mpr hr
        · exact absurd ((h1 b y).mpr hr2).symm hy
        · exact absurd ((h1 x b).mpr hr1) hx
  · intro x hx
    have hx2 : G.numVertices ≤ x := hx
    have hxx := h2 x hx2
    have hb2 : G.rep b < G.numVertices := h3 b hb
    show (if G.rep x = G.rep b then G.rep a else G.rep x) = x
    have hne : G.rep x ≠ G.rep b := by rw [hxx]; omega
    rw [if_neg hne, hxx]
  · intro v hv
    show (if G.rep v = G.rep b then G.rep a else G.rep v) < G.numVertices
    split_ifs
    · exact h3 a ha
    · exact h3 v hv
  · intro e he
    rcases List.mem_cons.mp he with rfl | he2
    · exact ⟨ha, hb⟩
    · exact h4 e he2

theorem roadmapInv_removeLoop {G : RoadmapGraph} (visCheck : ℕ → ℕ → ℕ → Bool)
    (v1 v2 : ℕ) (h : RoadmapInv G) :
    RoadmapInv (removeEdgeIfReductionLoop visCheck G v1 v2) := by
  obtain ⟨h1, h2, h3, h4⟩ := h
  rcases reductionFold_cases visCheck v1 v2 (commonNeighbors G.edges v1 v2) G.edges with
    heq | ⟨⟨v3, hv3, _⟩, heq⟩
  · refine ⟨?_, h2, h3, ?_⟩
    · intro a b
      show G.rep a = G.rep b ↔ ReachIn _ a b
      rw [show (removeEdgeIfReductionLoop visCheck G v1 v2).edges = G.edges from heq]
      exact h1 a b
    · intro e he
      rw [show (removeEdgeIfReductionLoop visCheck G v1 v2).edges = G.edges from heq] at he
      exact h4 e he
  · obtain ⟨ha13, ha32, hne1, hne2⟩ := commonNeighbors_spec hv3
    have hedges : (removeEdgeIfReductionLoop visCheck G v1 v2).edges =
        removeAllEdgesBetween G.edges v1 v2 := heq
    refine ⟨?_, h2, h3, ?_⟩
    · intro a b
      show G.rep a = G.rep b ↔ ReachIn _ a b
      rw [hedges, ← reachIn_removeAll_iff ha13 ha32 hne1 hne2]
      exact h1 a b
    · intro e he
      rw [hedges] at he
      exact h4 e (mem_removeAll.mp he).1

theorem roadmapInv_apply (visCheck : ℕ → ℕ → ℕ → Bool) (G : RoadmapGraph)
    (op : GraphOp) (h : RoadmapInv G) : RoadmapInv (applyGraphOp visCheck G op) := by
  cases op with
  | addVertex => exact roadmapInv_addVertex h
  | addEdge a b =>
    simp only [applyGraphOp]
    split_ifs with hab
    · exact roadmapInv_addEdge h hab.1 hab.2
    · exact h
  | removeLoopEdge v1 v2 => exact roadmapInv_removeLoop visCheck v1 v2 h

theorem roadmapInv_run (visCheck : ℕ → ℕ → ℕ → Bool) (ops : List GraphOp) :
    RoadmapInv (runGraphOps visCheck ops) := by
  have hgen : ∀ (l : List GraphOp) (G : RoadmapGraph), RoadmapInv G →
      RoadmapInv (l.foldl (applyGraphOp visCheck) G) := by
    intro l
    induction l with
    | nil => exact fun G hG => hG
    | cons op ops2 ih =>
      intro G hG
      exact ih _ (roadmapInv_apply visCheck G op hG)
  exact hgen ops initialRoadmap roadmapInv_init

/-- C5: on every roadmap state reachable by the graph operations (vertex
insertion, edge insertion, reducible-loop edge removal — the latter
removes an edge only in the presence of a visible triangle through a
common neighbor, so connectivity is unchanged even though the disjoint
sets are never split), sameComponent(a, b) holds exactly when a path
between a and b exists in the graph; and every edge addition unites its
endpoints' components. -/
theorem disjoint_sets_correct (visCheck : ℕ → ℕ → ℕ → Bool) (ops : List GraphOp) :
    (∀ a b : ℕ, sameComponent (runGraphOps visCheck ops) a b = true ↔
      ReachIn (runGraphOps visCheck ops).edges a b) ∧
    (∀ (G : RoadmapGraph) (a b : ℕ), sameComponent (addEdgeGraph G a b) a b = true) := by
  constructor
  · intro a b
    have h := (roadmapInv_run visCheck ops).1 a b
    rw [← h]
    simp [sameComponent]
  · intro G a b
    simp [sameComponent, addEdgeGraph, uniteComponents]

/-! Helper lemmas about parent chains in a tree state. -/

section TreeLemmas

variable {S : Type} [Inhabited S]

theorem parentIterate_zero (T : TreeState S) (i : ℕ) : parentIterate T 0 i = some i := rfl

theorem parentIterate_succ_some (T : TreeState S) {i p : ℕ} (h : (T.conf i).parent = some p)
    (k : ℕ) : parentIterate T (k + 1) i = parentIterate T k p := by
  simp [parentIterate, h]

theorem parentIterate_succ_none (T : TreeState S) {i : ℕ} (h : (T.conf i).parent = none)
    (k : ℕ) : parentIterate T (k + 1) i = none := by
  simp [parentIterate, h]

theorem parentIterate_add (T : TreeState S) (a b i : ℕ) :
    parentIterate T (a + b) i =
      match parentIterate T a i with
      | none => none
      | some m => parentIterate T b m := by
  induction a generalizing i with
  | zero => simp [parentIterate_zero]
  | succ a ih =>
    have : a + 1 + b = (a + b) + 1 := by omega
    rw [this]
    cases hp : (T.conf i).parent with
    | none =>
      rw [parentIterate_succ_none T hp, parentIterate_succ_none T hp]
    | some p =>
      rw [parentIterate_succ_some T hp, parentIterate_succ_some T hp, ih]

theorem parentIterate_congr {T2 T : TreeState S} (k i : ℕ)
    (h : ∀ t j, t < k → parentIterate T t i = some j →
      (T2.conf j).parent = (T.conf j).parent) :
    parentIterate T2 k i = parentIterate T k i := by
  induction k generalizing i with
  | zero => rfl
  | succ k ih =>
    have h0 : (T2.conf i).parent = (T.conf i).parent :=
      h 0 i (Nat.succ_pos k) (parentIterate_zero T i)
    cases hp : (T.conf i).parent with
    | none =>
      rw [parentIterate_succ_none T hp, parentIterate_succ_none T2 (h0.trans hp)]
    | some p =>
      rw [parentIterate_succ_some T hp, parentIterate_succ_some T2 (h0.trans hp)]
      exact ih p (fun t j ht hj =>
        h (t + 1) j (by omega) (by rw [parentIterate_succ_some T hp]; exact hj))

theorem parentIterate_root (T : TreeState S) (hroot : (T.conf 0).parent = none)
    (k : ℕ) (hk : 0 < k) : parentIterate T k 0 = none := by
  cases k with
  | zero => omega
  | succ k => exact parentIterate_succ_none T hroot k

theorem parentIterate_isSome_of_le (T : TreeState S) {x r : ℕ} {a m : ℕ}
    (h : parentIterate T m x = some r) (hle : a ≤ m) :
    ∃ j, parentIterate T a x = some j := by
  have hdec : m = a + (m - a) := by omega
  rw [hdec, parentIterate_add] at h
  cases hj : parentIterate T a x with
  | none => rw [hj] at h; exact absurd h (by simp)
  | some j => exact ⟨j, rfl⟩

theorem parentIterate_add_some (T : TreeState S) {a i m : ℕ}
    (h : parentIterate T a i = some m) (b : ℕ) :
    parentIterate T (a + b) i = parentIterate T b m := by
  rw [parentIterate_add, h]

theorem parentIterate_cycle_mul (T : TreeState S) {t i : ℕ}
    (h : parentIterate T t i = some i) :
    ∀ n, parentIterate T (n * t) i = some i := by
  intro n
  induction n with
  | zero => simp [parentIterate_zero]
  | succ n ih =>
    have heq : (n + 1) * t = n * t + t := by ring
    rw [heq, parentIterate_add_some T ih t]
    exact h

theorem no_cycle (T : TreeState S) (hroot : (T.conf 0).parent = none) {i : ℕ}
    (hrr : reachesRoot T i) : ∀ t, 0 < t → parentIterate T t i ≠ some i := by
  intro t ht hcycle
  obtain ⟨m, hm⟩ := hrr
  have hbig := parentIterate_cycle_mul T hcycle (m + 1)
  have hge : m + 1 ≤ (m + 1) * t := Nat.le_mul_of_pos_right _ ht
  have hdec : (m + 1) * t = m + ((m + 1) * t - m) := by omega
  rw [hdec, parentIterate_add_some T hm] at hbig
  rw [parentIterate_root T hroot ((m + 1) * t - m) (by omega)] at hbig
  exact absurd hbig (by simp)

theorem chain_reaches (T : TreeState S) {x q a : ℕ} (hrr : reachesRoot T x)
    (hroot : (T.conf 0).parent = none)
    (h : parentIterate T a x = some q) : reachesRoot T q := by
  obtain ⟨m, hm⟩ := hrr
  by_cases hle : a ≤ m
  · refine ⟨m - a, ?_⟩
    have hdec : m = a + (m - a) := by omega
    rw [hdec, parentIterate_add_some T h] at hm
    exact hm
  · exfalso
    have hdec : a = m + (a - m) := by omega
    rw [hdec, parentIterate_add_some T hm] at h
    rw [parentIterate_root T hroot (a - m) (by omega)] at h
    exact absurd h (by simp)

theorem hit_unique (T : TreeState S) (hroot : (T.conf 0).parent = none) {x q a b : ℕ}
    (hrr : reachesRoot T x) (ha : parentIterate T a x = some q)
    (hb : parentIterate T b x = some q) : a = b := by
  rcases Nat.lt_trichotomy a b with h | h | h
  · exfalso
    have hdec : b = a + (b - a) := by omega
    rw [hdec, parentIterate_add_some T ha] at hb
    exact no_cycle T hroot (chain_reaches T hrr hroot ha) (b - a) (by omega) hb
  · exact h
  · exfalso
    have hdec : a = b + (a - b) := by omega
    rw [hdec, parentIterate_add_some T hb] at ha
    exact no_cycle T hroot (chain_reaches T hrr hroot hb) (a - b) (by omega) ha

theorem chain_lt (T : TreeState S) (hs : TreeStruct T) :
    ∀ (t : ℕ) {x j : ℕ}, x < T.size → parentIterate T t x = some j → j < T.size := by
  intro t
  induction t with
  | zero =>
    intro x j hx h
    rw [parentIterate_zero] at h
    injection h with h2
    omega
  | succ t ih =>
    intro x j hx h
    by_cases hx0 : x = 0
    · subst hx0
      rw [parentIterate_root T hs.root_parent _ (Nat.succ_pos t)] at h
      exact absurd h (by simp)
    · obtain ⟨p, hp, hplt, _⟩ := hs.parent_spec x hx hx0
      rw [parentIterate_succ_some T hp] at h
      exact ih hplt h

theorem hit_lt_size (T : TreeState S) (hs : TreeStruct T) {x q k : ℕ}
    (hx : x < T.size) (h : parentIterate T k x = some q) : k < T.size := by
  obtain ⟨m, hm⟩ := hs.reaches_root x hx
  have hkm : k ≤ m := by
    by_contra hgt
    have hdec : k = m + (k - m) := by omega
    rw [hdec, parentIterate_add_some T hm] at h
    rw [parentIterate_root T hs.root_parent (k - m) (by omega)] at h
    exact absurd h (by simp)
  have hinj : Set.InjOn (fun t => (parentIterate T t x).getD 0) ↑(Finset.range (m + 1)) := by
    intro a ha b hb hab
    simp only [Finset.coe_range, Set.mem_Iio] at ha hb
    obtain ⟨ja, hja⟩ := parentIterate_isSome_of_le T hm (by omega : a ≤ m)
    obtain ⟨jb, hjb⟩ := parentIterate_isSome_of_le T hm (by omega : b ≤ m)
    simp only [hja, hjb, Option.getD_some] at hab
    subst hab
    exact hit_unique T hs.root_parent (hs.reaches_root x hx) hja hjb
  have hmaps : ∀ t ∈ Finset.range (m + 1),
      (parentIterate T t x).getD 0 ∈ Finset.range T.size := by
    intro t ht
    simp only [Finset.mem_range] at ht ⊢
    obtain ⟨j, hj⟩ := parentIterate_isSome_of_le T hm (by omega : t ≤ m)
    rw [hj, Option.getD_some]
    exact chain_lt T hs t hx hj
  have hcard := Finset.card_le_card_of_injOn _ hmaps hinj
  simp only [Finset.card_range] at hcard
  omega

end TreeLemmas

section StructLemmas

variable {S : Type} [Inhabited S]

theorem structEq_refl (T : TreeState S) : StructEq T T :=
  ⟨rfl, fun _ => ⟨rfl, rfl, rfl, rfl⟩⟩

theorem structEq_trans {T3 T2 T : TreeState S} (h32 : StructEq T3 T2)
    (h21 : StructEq T2 T) : StructEq T3 T := by
  obtain ⟨hs32, hf32⟩ := h32
  obtain ⟨hs21, hf21⟩ := h21
  refine ⟨hs32.trans hs21, fun j => ?_⟩
  obtain ⟨a1, a2, a3, a4⟩ := hf32 j
  obtain ⟨b1, b2, b3, b4⟩ := hf21 j
  exact ⟨a1.trans b1, a2.trans b2, a3.trans b3, a4.trans b4⟩

theorem parentIterate_structEq {T2 T : TreeState S} (h : StructEq T2 T) (k i : ℕ) :
    parentIterate T2 k i = parentIterate T k i :=
  parentIterate_congr k i (fun _ j _ _ => (h.2 j).1)

theorem reachesRoot_structEq {T2 T : TreeState S} (h : StructEq T2 T) (i : ℕ) :
    reachesRoot T2 i ↔ reachesRoot T i := by
  unfold reachesRoot
  constructor <;> rintro ⟨k, hk⟩ <;> exact ⟨k, by
    first
      | (rw [← parentIterate_structEq h]; exact hk)
      | (rw [parentIterate_structEq h]; exact hk)⟩

theorem strictDesc_structEq {T2 T : TreeState S} (h : StructEq T2 T) (q x : ℕ) :
    StrictDesc T2 q x ↔ StrictDesc T q x := by
  unfold StrictDesc
  constructor <;> rintro ⟨k, hk, hit⟩ <;> exact ⟨k, hk, by
    first
      | (rw [← parentIterate_structEq h]; exact hit)
      | (rw [parentIterate_structEq h]; exact hit)⟩

theorem treeStruct_structEq {T2 T : TreeState S} (h : StructEq T2 T)
    (hs : TreeStruct T) : TreeStruct T2 := by
  obtain ⟨hsz, hf⟩ := h
  refine ⟨hsz ▸ hs.size_pos, (hf 0).1.trans hs.root_parent, ?_, ?_, ?_, ?_⟩
  · intro i hi hi0
    obtain ⟨p, hp, hplt, hmem⟩ := hs.parent_spec i (by omega) hi0
    exact ⟨p, (hf i).1.trans hp, by omega, by rw [(hf p).2.1]; exact hmem⟩
  · intro p hp j hj
    rw [(hf p).2.1] at hj
    obtain ⟨hjlt, hjp⟩ := hs.children_spec p (by omega) j hj
    exact ⟨by omega, (hf j).1.trans hjp⟩
  · intro p hp
    rw [(hf p).2.1]
    exact hs.children_nodup p (by omega)
  · intro i hi
    rw [reachesRoot_structEq ⟨hsz, hf⟩]
    exact hs.reaches_root i (by omega)

theorem strictDesc_parent {T : TreeState S} {x q : ℕ}
    (h : (T.conf x).parent = some q) : StrictDesc T q x :=
  ⟨1, Nat.one_pos, by rw [parentIterate_succ_some T h]; rfl⟩

theorem strictDesc_step {T : TreeState S} {x y q : ℕ}
    (h : (T.conf x).parent = some y) (hd : StrictDesc T q y) : StrictDesc T q x := by
  obtain ⟨k, hk, hit⟩ := hd
  exact ⟨k + 1, by omega, by rw [parentIterate_succ_some T h]; exact hit⟩

theorem no_strictDesc_self {T : TreeState S} (hroot : (T.conf 0).parent = none)
    {q : ℕ} (hrr : reachesRoot T q) : ¬ StrictDesc T q q := by
  rintro ⟨k, hk, hit⟩
  exact no_cycle T hroot hrr k hk hit

theorem strictDesc_child_decomp {T : TreeState S} (hs : TreeStruct T)
    {q x : ℕ} (_hq : q < T.size) (hx : x < T.size) (hd : StrictDesc T q x) :
    ∃ c, c ∈ (T.conf q).children ∧ (x = c ∨ StrictDesc T c x) := by
  obtain ⟨k, hk, hit⟩ := hd
  obtain ⟨y, hy⟩ := parentIterate_isSome_of_le T hit (by omega : k - 1 ≤ k)
  have hklast : k = (k - 1) + 1 := by omega
  rw [hklast, parentIterate_add_some T hy] at hit
  have hyparent : (T.conf y).parent = some q := by
    cases hp : (T.conf y).parent with
    | none => rw [parentIterate_succ_none T hp] at hit; exact absurd hit (by simp)
    | some p =>
      rw [parentIterate_succ_some T hp, parentIterate_zero] at hit
      injection hit with hit2
      rw [hit2]
  have hylt : y < T.size := chain_lt T hs (k - 1) hx hy
  have hy0 : y ≠ 0 := by
    intro h0
    rw [h0, hs.root_parent] at hyparent
    exact absurd hyparent (by simp)
  obtain ⟨p, hp, _, hmem⟩ := hs.parent_spec y hylt hy0
  rw [hyparent] at hp
  injection hp with hp2
  subst hp2
  refine ⟨y, hmem, ?_⟩
  by_cases hk1 : k - 1 = 0
  · rw [hk1, parentIterate_zero] at hy
    injection hy with hy2
    exact Or.inl hy2
  · exact Or.inr ⟨k - 1, by omega, hy⟩

theorem strictDesc_of_child {T : TreeState S} (hs : TreeStruct T) {q c x : ℕ}
    (hq : q < T.size) (hc : c ∈ (T.conf q).children) (hcx : x = c ∨ StrictDesc T c x) :
    StrictDesc T q x := by
  have hcp : (T.conf c).parent = some q := (hs.children_spec q hq c hc).2
  rcases hcx with rfl | hd
  · exact strictDesc_parent hcp
  · obtain ⟨k, hk, hit⟩ := hd
    refine ⟨k + 1, by omega, ?_⟩
    rw [parentIterate_add_some T hit 1, parentIterate_succ_some T hcp, parentIterate_zero]

theorem strictDesc_induction (T : TreeState S) (hs : TreeStruct T) (q : ℕ)
    (P : ℕ → Prop)
    (hbase : ∀ x, x < T.size → (T.conf x).parent = some q → P x)
    (hstep : ∀ x y, x < T.size → (T.conf x).parent = some y → StrictDesc T q y →
      P y → P x) :
    ∀ x, x < T.size → StrictDesc T q x → P x := by
  have hgen : ∀ k x, x < T.size → 0 < k → parentIterate T k x = some q → P x := by
    intro k
    induction k using Nat.strong_induction_on with
    | _ k ih =>
      intro x hx hk hit
      cases k with
      | zero => omega
      | succ k2 =>
        cases hp : (T.conf x).parent with
        | none => rw [parentIterate_succ_none T hp] at hit; exact absurd hit (by simp)
        | some y =>
          rw [parentIterate_succ_some T hp] at hit
          cases Nat.eq_zero_or_pos k2 with
          | inl h0 =>
            subst h0
            rw [parentIterate_zero] at hit
            injection hit with hit2
            subst hit2
            exact hbase x hx hp
          | inr hpos =>
            have hx0 : x ≠ 0 := by
              intro h0
              rw [h0, hs.root_parent] at hp
              exact absurd hp (by simp)
            obtain ⟨p, hp2, hplt, _⟩ := hs.parent_spec x hx hx0
            rw [hp] at hp2
            injection hp2 with hp3
            subst hp3
            exact hstep x y hx hp ⟨k2, hpos, hit⟩ (ih k2 (by omega) y hplt hpos hit)
  rintro x hx ⟨k, hk, hit⟩
  exact hgen k x hx hk hit

end StructLemmas

section UccLemmas

variable {S : Type} [Inhabited S]

omit [Inhabited S] in
theorem setConf_size (T : TreeState S) (i : ℕ) (c : Conf S) :
    (setConf T i c).size = T.size := rfl

omit [Inhabited S] in
theorem setConf_conf_ne (T : TreeState S) {i j : ℕ} (c : Conf S) (h : j ≠ i) :
    (setConf T i c).conf j = T.conf j := by
  simp [setConf, h]

omit [Inhabited S] in
theorem setConf_conf_eq (T : TreeState S) (i : ℕ) (c : Conf S) :
    (setConf T i c).conf i = c := by
  simp [setConf]

theorem structEq_setCost (T : TreeState S) (c : ℕ) (v : ℚ) :
    StructEq (setConf T c { T.conf c with cost := v }) T := by
  refine ⟨rfl, fun j => ?_⟩
  by_cases hj : j = c
  · subst hj
    rw [setConf_conf_eq]
    exact ⟨rfl, rfl, rfl, rfl⟩
  · rw [setConf_conf_ne T _ hj]
    exact ⟨rfl, rfl, rfl, rfl⟩

theorem q_not_in_child_subtree {T : TreeState S} (hs : TreeStruct T) {q c : ℕ}
    (hq : q < T.size) (hc : c ∈ (T.conf q).children) :
    ¬(q = c ∨ StrictDesc T c q) := by
  have hcp : (T.conf c).parent = some q := (hs.children_spec q hq c hc).2
  rintro (rfl | hd)
  · exact no_strictDesc_self hs.root_parent (hs.reaches_root q hq) (strictDesc_parent hcp)
  · obtain ⟨k, hk, hit⟩ := hd
    have hcyc : parentIterate T (k + 1) q = some q := by
      rw [parentIterate_add_some T hit 1, parentIterate_succ_some T hcp, parentIterate_zero]
    exact no_cycle T hs.root_parent (hs.reaches_root q hq) (k + 1) (by omega) hcyc

theorem sibling_subtree_disjoint {T : TreeState S} (hs : TreeStruct T) {q c1 c2 x : ℕ}
    (hq : q < T.size) (hc1 : c1 ∈ (T.conf q).children) (hc2 : c2 ∈ (T.conf q).children)
    (hne : c1 ≠ c2) (hx : x < T.size) :
    ¬((x = c1 ∨ StrictDesc T c1 x) ∧ (x = c2 ∨ StrictDesc T c2 x)) := by
  have hcp1 : (T.conf c1).parent = some q := (hs.children_spec q hq c1 hc1).2
  have hcp2 : (T.conf c2).parent = some q := (hs.children_spec q hq c2 hc2).2
  rintro ⟨h1, h2⟩
  have hch1 : ∃ k1, parentIterate T k1 x = some c1 ∧ parentIterate T (k1 + 1) x = some q := by
    rcases h1 with rfl | ⟨k, hk, hit⟩
    · exact ⟨0, parentIterate_zero T x, by
        rw [parentIterate_add_some T (parentIterate_zero T x) 1,
          parentIterate_succ_some T hcp1, parentIterate_zero]⟩
    · exact ⟨k, hit, by
        rw [parentIterate_add_some T hit 1, parentIterate_succ_some T hcp1,
          parentIterate_zero]⟩
  have hch2 : ∃ k2, parentIterate T k2 x = some c2 ∧ parentIterate T (k2 + 1) x = some q := by
    rcases h2 with rfl | ⟨k, hk, hit⟩
    · exact ⟨0, parentIterate_zero T x, by
        rw [parentIterate_add_some T (parentIterate_zero T x) 1,
          parentIterate_succ_some T hcp2, parentIterate_zero]⟩
    · exact ⟨k, hit, by
        rw [parentIterate_add_some T hit 1, parentIterate_succ_some T hcp2,
          parentIterate_zero]⟩
  obtain ⟨k1, hit1, hq1⟩ := hch1
  obtain ⟨k2, hit2, hq2⟩ := hch2
  have hk12 : k1 + 1 = k2 + 1 :=
    hit_unique T hs.root_parent (hs.reaches_root x hx) hq1 hq2
  have : k1 = k2 := by omega
  subst this
  rw [hit1] at hit2
  injection hit2 with h12
  exact hne h12

theorem strictDesc_parent_up {T : TreeState S} {c x p : ℕ}
    (hd : StrictDesc T c x) (hp : (T.conf x).parent = some p) :
    p = c ∨ StrictDesc T c p := by
  obtain ⟨k, hk, hit⟩ := hd
  cases k with
  | zero => omega
  | succ k2 =>
    rw [parentIterate_succ_some T hp] at hit
    cases Nat.eq_zero_or_pos k2 with
    | inl h0 =>
      subst h0
      rw [parentIterate_zero] at hit
      injection hit with h2
      exact Or.inl h2
    | inr hpos => exact Or.inr ⟨k2, hpos, hit⟩

theorem updateChildCosts_zero (T : TreeState S) (q : ℕ) : updateChildCosts 0 T q = T := rfl

theorem updateChildCosts_succ (fuel : ℕ) (T : TreeState S) (q : ℕ) :
    updateChildCosts (fuel + 1) T q =
      (T.conf q).children.foldl
        (fun acc c => updateChildCosts fuel
          (setConf acc c { acc.conf c with
            cost := (acc.conf q).cost + (acc.conf c).lineCost }) c)
        T := rfl

end UccLemmas

/-- Full specification of updateChildCosts: with enough fuel (at least
the depth of every descendant chain) it rewrites exactly the costs of the
strict descendants of q, restoring the cost equation throughout q's
subtree, and touches nothing else. -/
theorem updateChildCosts_spec {S : Type} [Inhabited S] :
    ∀ (fuel : ℕ) (T : TreeState S) (q : ℕ), TreeStruct T → q < T.size →
      (∀ x k, x < T.size → 0 < k → parentIterate T k x = some q → k ≤ fuel) →
      StructEq (updateChildCosts fuel T q) T ∧
      (∀ x, ¬(x < T.size ∧ StrictDesc T q x) →
        ((updateChildCosts fuel T q).conf x).cost = (T.conf x).cost) ∧
      (∀ x p, x < T.size → StrictDesc T q x → (T.conf x).parent = some p →
        ((updateChildCosts fuel T q).conf x).cost =
          ((updateChildCosts fuel T q).conf p).cost + (T.conf x).lineCost) := by
  intro fuel
  induction fuel with
  | zero =>
    intro T q hs hq hdepth
    refine ⟨structEq_refl T, fun x _ => rfl, ?_⟩
    rintro x p hx ⟨k, hk, hit⟩ _
    exact absurd (hdepth x k hx hk hit) (by omega)
  | succ fuel ih =>
    intro T q hs hq hdepth
    have key : ∀ (rest pre : List ℕ) (acc : TreeState S),
        (T.conf q).children = pre ++ rest →
        StructEq acc T →
        (∀ x, ¬(x < T.size ∧ ∃ c2 ∈ pre, x = c2 ∨ StrictDesc T c2 x) →
          (acc.conf x).cost = (T.conf x).cost) →
        (∀ x p, x < T.size → (∃ c2 ∈ pre, x = c2 ∨ StrictDesc T c2 x) →
          (T.conf x).parent = some p →
          (acc.conf x).cost = (acc.conf p).cost + (T.conf x).lineCost) →
        StructEq (rest.foldl
          (fun acc2 c => updateChildCosts fuel
            (setConf acc2 c { acc2.conf c with
              cost := (acc2.conf q).cost + (acc2.conf c).lineCost }) c) acc) T ∧
        (∀ x, ¬(x < T.size ∧ ∃ c2 ∈ pre ++ rest, x = c2 ∨ StrictDesc T c2 x) →
          ((rest.foldl
            (fun acc2 c => updateChildCosts fuel
              (setConf acc2 c { acc2.conf c with
                cost := (acc2.conf q).cost + (acc2.conf c).lineCost }) c) acc).conf x).cost =
            (T.conf x).cost) ∧
        (∀ x p, x < T.size → (∃ c2 ∈ pre ++ rest, x = c2 ∨ StrictDesc T c2 x) →
          (T.conf x).parent = some p →
          ((rest.foldl
            (fun acc2 c => updateChildCosts fuel
              (setConf acc2 c { acc2.conf c with
                cost := (acc2.conf q).cost + (acc2.conf c).lineCost }) c) acc).conf x).cost =
            ((rest.foldl
              (fun acc2 c => updateChildCosts fuel
                (setConf acc2 c { acc2.conf c with
                  cost := (acc2.conf q).cost + (acc2.conf c).lineCost }) c) acc).conf p).cost +
              (T.conf x).lineCost) := by
      intro rest
      induction rest with
      | nil =>
        intro pre acc happend hacc hframe heqn
        simp only [List.foldl_nil, List.append_nil]
        exact ⟨hacc, hframe, heqn⟩
      | cons c rest2 ihrest =>
        intro pre acc happend hacc hframe heqn
        have hc_mem : c ∈ (T.conf q).children := by
          rw [happend]
          exact List.mem_append_right _ (List.mem_cons_self _ _)
        obtain ⟨hclt, hcp⟩ := hs.children_spec q hq c hc_mem
        have hcnotpre : c ∉ pre := by
          have hnd := hs.children_nodup q hq
          rw [happend] at hnd
          have hdisj := (List.nodup_append.mp hnd).2.2
          intro hcin
          exact hdisj hcin (List.mem_cons_self _ _)
        have hqnotc := q_not_in_child_subtree hs hq hc_mem
        -- the state after the in-place cost write for c
        have hA : StructEq (setConf acc c { acc.conf c with
            cost := (acc.conf q).cost + (acc.conf c).lineCost }) acc :=
          structEq_setCost acc c _
        have hAT : StructEq (setConf acc c { acc.conf c with
            cost := (acc.conf q).cost + (acc.conf c).lineCost }) T :=
          structEq_trans hA hacc
        have hsA := treeStruct_structEq hAT hs
        have hdepthA : ∀ x k, x < (setConf acc c { acc.conf c with
            cost := (acc.conf q).cost + (acc.conf c).lineCost }).size → 0 < k →
            parentIterate (setConf acc c { acc.conf c with
              cost := (acc.conf q).cost + (acc.conf c).lineCost }) k x = some c →
            k ≤ fuel := by
          intro x k hx hk hit
          rw [parentIterate_structEq hAT] at hit
          have hx2 : x < T.size := by rw [← hAT.1]; exact hx
          have hqhit : parentIterate T (k + 1) x = some q := by
            rw [parentIterate_add_some T hit 1, parentIterate_succ_some T hcp,
              parentIterate_zero]
          have := hdepth x (k + 1) hx2 (by omega) hqhit
          omega
        obtain ⟨e1, e2, e3⟩ := ih (setConf acc c { acc.conf c with
            cost := (acc.conf q).cost + (acc.conf c).lineCost }) c hsA
          (by rw [hAT.1]; exact hclt) hdepthA
        -- abbreviations for readability of the steps below
        have hacc2T : StructEq (updateChildCosts fuel (setConf acc c { acc.conf c with
            cost := (acc.conf q).cost + (acc.conf c).lineCost }) c) T :=
          structEq_trans e1 hAT
        -- cost of any vertex outside the subtree of c is untouched
        have hout : ∀ x, ¬(x < T.size ∧ (x = c ∨ StrictDesc T c x)) →
            ((updateChildCosts fuel (setConf acc c { acc.conf c with
              cost := (acc.conf q).cost + (acc.conf c).lineCost }) c).conf x).cost =
            (acc.conf x).cost := by
          intro x hnx
          by_cases hxc : x = c
          · exact absurd ⟨by subst hxc; exact hclt, Or.inl hxc⟩ hnx
          · have h1 : ((updateChildCosts fuel (setConf acc c { acc.conf c with
                cost := (acc.conf q).cost + (acc.conf c).lineCost }) c).conf x).cost =
                ((setConf acc c { acc.conf c with
                  cost := (acc.conf q).cost + (acc.conf c).lineCost }).conf x).cost := by
              apply e2
              rintro ⟨hxlt, hsd⟩
              rw [strictDesc_structEq hAT] at hsd
              exact hnx ⟨by rw [← hAT.1]; exact hxlt, Or.inr hsd⟩
            rw [h1, setConf_conf_ne acc _ hxc]
        refine ?_
        simp only [List.foldl_cons]
        have hres := ihrest (pre ++ [c])
          (updateChildCosts fuel (setConf acc c { acc.conf c with
            cost := (acc.conf q).cost + (acc.conf c).lineCost }) c)
          (by rw [happend, List.append_assoc]; rfl)
          hacc2T
          ?_ ?_
        · obtain ⟨r1, r2, r3⟩ := hres
          refine ⟨r1, ?_, ?_⟩
          · intro x hnx
            apply r2
            rintro ⟨hxlt, c2, hc2, hcase⟩
            refine hnx ⟨hxlt, c2, ?_, hcase⟩
            simpa using hc2
          · intro x p hx hex hp
            apply r3 x p hx ?_ hp
            obtain ⟨c2, hc2, hcase⟩ := hex
            refine ⟨c2, ?_, hcase⟩
            simpa using hc2
        -- new frame premise for the recursive call
        · intro x hnx
          have hnotc : ¬(x < T.size ∧ (x = c ∨ StrictDesc T c x)) := by
            rintro ⟨hxlt, hcase⟩
            exact hnx ⟨hxlt, c, List.mem_append_right _ (List.mem_cons_self _ _), hcase⟩
          rw [hout x hnotc]
          apply hframe
          rintro ⟨hxlt, c2, hc2, hcase⟩
          exact hnx ⟨hxlt, c2, List.mem_append_left _ hc2, hcase⟩
        -- new equation premise for the recursive call
        · intro x p hx hex hp
          obtain ⟨c2, hc2mem, hc2case⟩ := hex
          rcases List.mem_append.mp hc2mem with hc2pre | hc2c
          · -- x lies in the subtree of an earlier child: values survive
            have hc2memq : c2 ∈ (T.conf q).children := by
              rw [happend]
              exact List.mem_append_left _ hc2pre
            have hc2ne : c2 ≠ c := fun he => hcnotpre (he ▸ hc2pre)
            have hxout : ¬(x < T.size ∧ (x = c ∨ StrictDesc T c x)) := by
              rintro ⟨_, hcase⟩
              exact sibling_subtree_disjoint hs hq hc2memq hc_mem hc2ne hx
                ⟨hc2case, hcase⟩
            -- the parent of x also stays outside c's subtree
            have hpout : ¬(p < T.size ∧ (p = c ∨ StrictDesc T c p)) := by
              rintro ⟨hplt, hpcase⟩
              rcases hc2case with heq | hsdx
              · -- x = c2, so p = q
                have hpq : p = q := by
                  rw [heq, (hs.children_spec q hq c2 hc2memq).2] at hp
                  injection hp with h2
                  omega
                rw [hpq] at hpcase
                exact hqnotc hpcase
              · rcases strictDesc_parent_up hsdx hp with heq | hsdp
                · exact sibling_subtree_disjoint hs hq hc2memq hc_mem hc2ne hplt
                    ⟨Or.inl heq, hpcase⟩
                · exact sibling_subtree_disjoint hs hq hc2memq hc_mem hc2ne hplt
                    ⟨Or.inr hsdp, hpcase⟩
            rw [hout x hxout, hout p hpout]
            exact heqn x p hx ⟨c2, hc2pre, hc2case⟩ hp
          · -- c2 = c: x lies in the subtree of c itself
            have hc2eq : c2 = c := by simpa using hc2c
            rw [hc2eq] at hc2case
            rcases hc2case with heq | hsdx
            · -- x = c: its new cost is q's running cost plus its line cost
              have hpq : p = q := by
                rw [heq, hcp] at hp
                injection hp with h2
                omega
              rw [heq, hpq]
              have hcc : ((updateChildCosts fuel (setConf acc c { acc.conf c with
                  cost := (acc.conf q).cost + (acc.conf c).lineCost }) c).conf c).cost =
                  (acc.conf q).cost + (acc.conf c).lineCost := by
                have h1 := e2 c (by
                  rintro ⟨hclt2, hsd⟩
                  rw [strictDesc_structEq hAT] at hsd
                  exact no_strictDesc_self hs.root_parent
                    (hs.reaches_root c hclt) hsd)
                rw [h1, setConf_conf_eq]
              have hqq : ((updateChildCosts fuel (setConf acc c { acc.conf c with
                  cost := (acc.conf q).cost + (acc.conf c).lineCost }) c).conf q).cost =
                  (acc.conf q).cost := by
                apply hout q
                rintro ⟨_, hcase⟩
                exact hqnotc hcase
              rw [hcc, hqq, (hacc.2 c).2.2.1]
            · -- x a strict descendant of c: the inner recursion fixed it
              have h3 := e3 x p (by rw [hAT.1]; exact hx)
                (by rw [strictDesc_structEq hAT]; exact hsdx)
                (by rw [(hAT.2 x).1]; exact hp)
              rw [(hAT.2 x).2.2.1] at h3
              exact h3
    have hmain := key (T.conf q).children [] T (by simp) (structEq_refl T)
      (fun x _ => rfl) (by rintro x p hx ⟨c2, hc2, _⟩ hp; simp at hc2)
    rw [updateChildCosts_succ]
    obtain ⟨k1, k2, k3⟩ := hmain
    refine ⟨k1, ?_, ?_⟩
    · intro x hnx
      apply k2
      rintro ⟨hxlt, c2, hc2, hcase⟩
      simp only [List.nil_append] at hc2
      exact hnx ⟨hxlt, strictDesc_of_child hs hq hc2 hcase⟩
    · intro x p hx hsd hp
      obtain ⟨c2, hc2, hcase⟩ := strictDesc_child_decomp hs hq hx hsd
      exact k3 x p hx ⟨c2, by simpa using hc2, hcase⟩ hp

section RewireLemmas

variable {S : Type} [Inhabited S]

theorem treeInv_to_struct {T : TreeState S} (hT : TreeInv T) : TreeStruct T := by
  refine ⟨hT.size_pos, hT.root_parent, ?_, hT.children_spec, hT.children_nodup,
    hT.reaches_root⟩
  intro i hi hi0
  obtain ⟨p, hp, hplt, _, hmem⟩ := hT.parent_spec i hi hi0
  exact ⟨p, hp, hplt, hmem⟩

theorem cost_le_along_chain {T : TreeState S} (hT : TreeInv T) :
    ∀ (t : ℕ) {x a : ℕ}, x < T.size → parentIterate T t x = some a →
      (T.conf a).cost ≤ (T.conf x).cost := by
  intro t
  induction t with
  | zero =>
    intro x a hx h
    rw [parentIterate_zero] at h
    injection h with h2
    rw [h2]
  | succ t ih =>
    intro x a hx h
    by_cases hx0 : x = 0
    · subst hx0
      rw [parentIterate_root T hT.root_parent _ (Nat.succ_pos t)] at h
      exact absurd h (by simp)
    · obtain ⟨p, hp, hplt, hcost, _⟩ := hT.parent_spec x hx hx0
      rw [parentIterate_succ_some T hp] at h
      have h1 := ih hplt h
      have h2 := hT.lineCost_nonneg x hx
      rw [hcost]
      linarith

theorem updateChildCosts_other_fields :
    ∀ (fuel : ℕ) (T : TreeState S) (q : ℕ),
      (updateChildCosts fuel T q).goalConfigurations = T.goalConfigurations ∧
      (updateChildCosts fuel T q).qGoal = T.qGoal ∧
      (updateChildCosts fuel T q).bestCost = T.bestCost ∧
      (updateChildCosts fuel T q).hasSolution = T.hasSolution := by
  intro fuel
  induction fuel with
  | zero => exact fun T q => ⟨rfl, rfl, rfl, rfl⟩
  | succ fuel ih =>
    intro T q
    rw [updateChildCosts_succ]
    have hgen : ∀ (l : List ℕ) (acc : TreeState S),
        acc.goalConfigurations = T.goalConfigurations ∧ acc.qGoal = T.qGoal ∧
          acc.bestCost = T.bestCost ∧ acc.hasSolution = T.hasSolution →
        ((l.foldl (fun acc2 c => updateChildCosts fuel
            (setConf acc2 c { acc2.conf c with
              cost := (acc2.conf q).cost + (acc2.conf c).lineCost }) c)
          acc).goalConfigurations = T.goalConfigurations ∧
        (l.foldl (fun acc2 c => updateChildCosts fuel
            (setConf acc2 c { acc2.conf c with
              cost := (acc2.conf q).cost + (acc2.conf c).lineCost }) c)
          acc).qGoal = T.qGoal ∧
        (l.foldl (fun acc2 c => updateChildCosts fuel
            (setConf acc2 c { acc2.conf c with
              cost := (acc2.conf q).cost + (acc2.conf c).lineCost }) c)
          acc).bestCost = T.bestCost ∧
        (l.foldl (fun acc2 c => updateChildCosts fuel
            (setConf acc2 c { acc2.conf c with
              cost := (acc2.conf q).cost + (acc2.conf c).lineCost }) c)
          acc).hasSolution = T.hasSolution) := by
      intro l
      induction l with
      | nil => exact fun acc h => h
      | cons c cs ihl =>
        intro acc h
        simp only [List.foldl_cons]
        apply ihl
        obtain ⟨i1, i2, i3, i4⟩ := ih (setConf acc c { acc.conf c with
          cost := (acc.conf q).cost + (acc.conf c).lineCost }) c
        exact ⟨i1.trans h.1, i2.trans h.2.1, i3.trans h.2.2.1, i4.trans h.2.2.2⟩
    exact hgen (T.conf q).children T ⟨rfl, rfl, rfl, rfl⟩

theorem reroute_reaches {T T3 : TreeState S} {qn vNew : ℕ}
    (hpar : ∀ i, (T3.conf i).parent =
      if i = qn then some vNew else (T.conf i).parent)
    (havoid : ∀ t, parentIterate T t vNew ≠ some qn)
    (hvrr : reachesRoot T vNew) :
    ∀ i, reachesRoot T i → reachesRoot T3 i := by
  have hvNewT3 : reachesRoot T3 vNew := by
    obtain ⟨m, hm⟩ := hvrr
    refine ⟨m, ?_⟩
    rw [parentIterate_congr m vNew ?_]
    · exact hm
    · intro t j ht hj
      rw [hpar j, if_neg ?_]
      intro hje
      exact havoid t (hje ▸ hj)
  have hgen : ∀ m i, parentIterate T m i = some 0 → reachesRoot T3 i := by
    intro m
    induction m with
    | zero =>
      intro i h
      rw [parentIterate_zero] at h
      injection h with h2
      subst h2
      exact ⟨0, parentIterate_zero T3 0⟩
    | succ m ihm =>
      intro i h
      by_cases hiq : i = qn
      · obtain ⟨m2, hm2⟩ := hvNewT3
        refine ⟨m2 + 1, ?_⟩
        have hq3 : (T3.conf i).parent = some vNew := by rw [hpar, if_pos hiq]
        rw [parentIterate_succ_some T3 hq3]
        exact hm2
      · cases hp : (T.conf i).parent with
        | none => rw [parentIterate_succ_none T hp] at h; exact absurd h (by simp)
        | some p =>
          rw [parentIterate_succ_some T hp] at h
          obtain ⟨m2, hm2⟩ := ihm p h
          refine ⟨m2 + 1, ?_⟩
          rw [parentIterate_succ_some T3 (by rw [hpar, if_neg hiq]; exact hp)]
          exact hm2
  rintro i ⟨m, hm⟩
  exact hgen m i hm

end RewireLemmas

section RelinkLemmas

variable {S : Type} [Inhabited S]

theorem removeFromParent_conf (T : TreeState S) {qn pOld : ℕ}
    (hpOld : (T.conf qn).parent = some pOld) (j : ℕ) :
    (removeFromParent T qn).conf j =
      if j = pOld then { T.conf pOld with
        children := (T.conf pOld).children.erase qn } else T.conf j := by
  unfold removeFromParent
  rw [hpOld]
  by_cases hj : j = pOld
  · rw [hj, setConf_conf_eq, if_pos rfl]
  · rw [setConf_conf_ne _ _ hj, if_neg hj]

theorem relink_conf (T : TreeState S) {qn pOld : ℕ} (vNew : ℕ) (line newCost : ℚ)
    (hpOld : (T.conf qn).parent = some pOld) (hqp : qn ≠ pOld) (hqv : qn ≠ vNew)
    (j : ℕ) :
    (relinkTree T qn vNew line newCost).conf j =
    if j = qn then
      { T.conf qn with lineCost := line, cost := newCost, parent := some vNew }
    else if j = vNew then
      { T.conf vNew with children :=
          (if vNew = pOld then (T.conf pOld).children.erase qn
            else (T.conf vNew).children) ++ [qn] }
    else if j = pOld then
      { T.conf pOld with children := (T.conf pOld).children.erase qn }
    else T.conf j := by
  have hrm := removeFromParent_conf T hpOld
  have hrmq : (removeFromParent T qn).conf qn = T.conf qn := by
    rw [hrm qn, if_neg hqp]
  have hvq : ¬ (vNew = qn) := fun h => hqv h.symm
  unfold relinkTree appendChild
  by_cases hjq : j = qn
  · rw [if_pos hjq, hjq, setConf_conf_ne _ _ hqv, setConf_conf_eq, hrmq]
  · rw [if_neg hjq]
    by_cases hjv : j = vNew
    · rw [if_pos hjv, hjv, setConf_conf_eq, setConf_conf_ne _ _ hvq]
      by_cases hvp : vNew = pOld
      · rw [if_pos hvp, hrm vNew, if_pos hvp]
        rw [hvp]
      · rw [if_neg hvp, hrm vNew, if_neg hvp]
    · rw [setConf_conf_ne _ _ hjv, setConf_conf_ne _ _ hjq, hrm j, if_neg hjv]

theorem relink_size (T : TreeState S) (qn vNew : ℕ) (line newCost : ℚ) :
    (relinkTree T qn vNew line newCost).size = T.size := by
  unfold relinkTree appendChild removeFromParent
  cases (T.conf qn).parent <;> rfl

theorem relink_goalFields (T : TreeState S) (qn vNew : ℕ) (line newCost : ℚ) :
    (relinkTree T qn vNew line newCost).goalConfigurations = T.goalConfigurations ∧
    (relinkTree T qn vNew line newCost).qGoal = T.qGoal ∧
    (relinkTree T qn vNew line newCost).bestCost = T.bestCost ∧
    (relinkTree T qn vNew line newCost).hasSolution = T.hasSolution := by
  unfold relinkTree appendChild removeFromParent
  cases (T.conf qn).parent <;> exact ⟨rfl, rfl, rfl, rfl⟩

end RelinkLemmas

section RelinkSpec

variable {S : Type} [Inhabited S]

/-- Full specification of one firing rewire iteration: under the tree
invariant, rewiring qn through vNew with a nonnegative line cost that
strictly improves qn's cost preserves the tree invariant, only lowers
costs, keeps every state and the whole root configuration (other than its
children list) intact, and leaves the goal bookkeeping fields untouched. -/
theorem relink_spec {T : TreeState S} {qn vNew : ℕ} {line newCost : ℚ}
    (hT : TreeInv T) (hqn : qn < T.size) (hvNew : vNew < T.size)
    (hline : 0 ≤ line) (hncost : newCost = (T.conf vNew).cost + line)
    (hbetter : newCost < (T.conf qn).cost) :
    TreeInv (rewireApply T qn vNew line newCost) ∧
    (rewireApply T qn vNew line newCost).size = T.size ∧
    (∀ j, ((rewireApply T qn vNew line newCost).conf j).state = (T.conf j).state) ∧
    (∀ j, j < T.size →
      ((rewireApply T qn vNew line newCost).conf j).cost ≤ (T.conf j).cost) ∧
    ((rewireApply T qn vNew line newCost).conf 0).parent = none ∧
    ((rewireApply T qn vNew line newCost).conf 0).cost = 0 ∧
    ((rewireApply T qn vNew line newCost).conf 0).lineCost = (T.conf 0).lineCost ∧
    (rewireApply T qn vNew line newCost).goalConfigurations = T.goalConfigurations ∧
    (rewireApply T qn vNew line newCost).qGoal = T.qGoal ∧
    (rewireApply T qn vNew line newCost).bestCost = T.bestCost ∧
    (rewireApply T qn vNew line newCost).hasSolution = T.hasSolution := by
  unfold rewireApply
  have hnc0 : 0 ≤ newCost := by
    have := hT.cost_nonneg vNew hvNew
    rw [hncost]
    linarith
  have hqn0 : qn ≠ 0 := by
    intro h0
    rw [h0, hT.root_cost] at hbetter
    linarith
  have hqv : qn ≠ vNew := by
    intro h
    rw [hncost, ← h] at hbetter
    linarith
  have hvq : vNew ≠ qn := Ne.symm hqv
  obtain ⟨pOld, hpOld, hpOldlt, hpcost, hpmem⟩ := hT.parent_spec qn hqn hqn0
  have hqp : qn ≠ pOld := by
    intro h
    have hc1 : parentIterate T 1 qn = some qn := by
      rw [parentIterate_succ_some T hpOld, parentIterate_zero, h]
    exact no_cycle T hT.root_parent (hT.reaches_root qn hqn) 1 Nat.one_pos hc1
  have havoid : ∀ t, parentIterate T t vNew ≠ some qn := by
    intro t hhit
    have hle := cost_le_along_chain hT t hvNew hhit
    rw [hncost] at hbetter
    linarith
  have hsize3 : (relinkTree T qn vNew line newCost).size = T.size :=
    relink_size T qn vNew line newCost
  have hpar3 : ∀ j, ((relinkTree T qn vNew line newCost).conf j).parent =
      if j = qn then some vNew else (T.conf j).parent := by
    intro j
    rw [relink_conf T vNew line newCost hpOld hqp hqv j]
    split_ifs with h1 h2 h3 h4
    · rfl
    · rw [h2]
    · rw [h2]
    · rw [h4]
    · rfl
  have hcost3 : ∀ j, ((relinkTree T qn vNew line newCost).conf j).cost =
      if j = qn then newCost else (T.conf j).cost := by
    intro j
    rw [relink_conf T vNew line newCost hpOld hqp hqv j]
    split_ifs with h1 h2 h3 h4
    · rfl
    · rw [h2]
    · rw [h2]
    · rw [h4]
    · rfl
  have hline3 : ∀ j, ((relinkTree T qn vNew line newCost).conf j).lineCost =
      if j = qn then line else (T.conf j).lineCost := by
    intro j
    rw [relink_conf T vNew line newCost hpOld hqp hqv j]
    split_ifs with h1 h2 h3 h4
    · rfl
    · rw [h2]
    · rw [h2]
    · rw [h4]
    · rfl
  have hstate3 : ∀ j, ((relinkTree T qn vNew line newCost).conf j).state =
      (T.conf j).state := by
    intro j
    rw [relink_conf T vNew line newCost hpOld hqp hqv j]
    split_ifs with h1 h2 h3 h4
    · rw [h1]
    · rw [h2]
    · rw [h2]
    · rw [h4]
    · rfl
  have hchild3 : ∀ j, ((relinkTree T qn vNew line newCost).conf j).children =
      if j = qn then (T.conf qn).children
      else if j = vNew then
        (if vNew = pOld then (T.conf pOld).children.erase qn
          else (T.conf vNew).children) ++ [qn]
      else if j = pOld then (T.conf pOld).children.erase qn
      else (T.conf j).children := by
    intro j
    rw [relink_conf T vNew line newCost hpOld hqp hqv j]
    split_ifs <;> rfl
  have hroot3 : ((relinkTree T qn vNew line newCost).conf 0).parent = none := by
    rw [hpar3 0, if_neg (Ne.symm hqn0), hT.root_parent]
  have hstruct3 : TreeStruct (relinkTree T qn vNew line newCost) := by
    refine ⟨by rw [hsize3]; exact hT.size_pos, hroot3, ?_, ?_, ?_, ?_⟩
    · intro i hi hi0
      rw [hsize3] at hi
      by_cases hiq : i = qn
      · subst hiq
        refine ⟨vNew, by rw [hpar3, if_pos rfl], by rw [hsize3]; exact hvNew, ?_⟩
        rw [hchild3 vNew, if_neg hvq, if_pos rfl]
        exact List.mem_append_right _ (List.mem_singleton_self i)
      · obtain ⟨p, hp, hplt, hmem⟩ := (treeInv_to_struct hT).parent_spec i hi hi0
        refine ⟨p, by rw [hpar3, if_neg hiq]; exact hp,
          by rw [hsize3]; exact hplt, ?_⟩
        rw [hchild3 p]
        by_cases hp1 : p = qn
        · rw [if_pos hp1, ← hp1]
          exact hmem
        · rw [if_neg hp1]
          by_cases hp2 : p = vNew
          · rw [if_pos hp2]
            refine List.mem_append_left _ ?_
            by_cases hp3 : vNew = pOld
            · rw [if_pos hp3]
              rw [hp2, hp3] at hmem
              exact (List.mem_erase_of_ne hiq).mpr hmem
            · rw [if_neg hp3, ← hp2]
              exact hmem
          · rw [if_neg hp2]
            by_cases hp4 : p = pOld
            · rw [if_pos hp4]
              rw [hp4] at hmem
              exact (List.mem_erase_of_ne hiq).mpr hmem
            · rw [if_neg hp4]
              exact hmem
    · intro p hp j hj
      rw [hsize3] at hp
      rw [hchild3 p] at hj
      by_cases hp1 : p = qn
      · rw [if_pos hp1] at hj
        have hcs := hT.children_spec qn hqn j hj
        have hjq : j ≠ qn := by
          intro hjq
          have h2 := hcs.2
          rw [hjq, hpOld] at h2
          injection h2 with h3
          exact hqp h3.symm
        exact ⟨by rw [hsize3]; exact hcs.1,
          by rw [hpar3 j, if_neg hjq, hcs.2, hp1]⟩
      · rw [if_neg hp1] at hj
        by_cases hp2 : p = vNew
        · rw [if_pos hp2] at hj
          rcases List.mem_append.mp hj with hj2 | hj2
          · by_cases hp3 : vNew = pOld
            · rw [if_pos hp3] at hj2
              have hiff :=
                (List.Nodup.mem_erase_iff (hT.children_nodup pOld hpOldlt)).mp hj2
              have hcs := hT.children_spec pOld hpOldlt j hiff.2
              exact ⟨by rw [hsize3]; exact hcs.1,
                by rw [hpar3 j, if_neg hiff.1, hcs.2, hp2, hp3]⟩
            · rw [if_neg hp3] at hj2
              have hcs := hT.children_spec vNew hvNew j hj2
              have hjq : j ≠ qn := by
                intro hjq
                have h2 := hcs.2
                rw [hjq, hpOld] at h2
                injection h2 with h3
                exact hp3 h3.symm
              exact ⟨by rw [hsize3]; exact hcs.1,
                by rw [hpar3 j, if_neg hjq, hcs.2, hp2]⟩
          · have hjq : j = qn := List.mem_singleton.mp hj2
            subst hjq
            exact ⟨by rw [hsize3]; exact hqn,
              by rw [hpar3, if_pos rfl, hp2]⟩
        · rw [if_neg hp2] at hj
          by_cases hp4 : p = pOld
          · rw [if_pos hp4] at hj
            have hiff :=
              (List.Nodup.mem_erase_iff (hT.children_nodup pOld hpOldlt)).mp hj
            have hcs := hT.children_spec pOld hpOldlt j hiff.2
            exact ⟨by rw [hsize3]; exact hcs.1,
              by rw [hpar3 j, if_neg hiff.1, hcs.2, hp4]⟩
          · rw [if_neg hp4] at hj
            have hcs := hT.children_spec p hp j hj
            have hjq : j ≠ qn := by
              intro hjq
              have h2 := hcs.2
              rw [hjq, hpOld] at h2
              injection h2 with h3
              exact hp4 h3.symm
            exact ⟨by rw [hsize3]; exact hcs.1,
              by rw [hpar3 j, if_neg hjq, hcs.2]⟩
    · intro p hp
      rw [hsize3] at hp
      rw [hchild3 p]
      by_cases hp1 : p = qn
      · rw [if_pos hp1]
        exact hT.children_nodup qn hqn
      · rw [if_neg hp1]
        by_cases hp2 : p = vNew
        · rw [if_pos hp2, List.nodup_append]
          refine ⟨?_, List.nodup_singleton qn, ?_⟩
          · by_cases hp3 : vNew = pOld
            · rw [if_pos hp3]
              exact (hT.children_nodup pOld hpOldlt).erase qn
            · rw [if_neg hp3]
              exact hT.children_nodup vNew hvNew
          · intro a ha hb
            have haq : a = qn := List.mem_singleton.mp hb
            subst haq
            by_cases hp3 : vNew = pOld
            · rw [if_pos hp3] at ha
              exact ((List.Nodup.mem_erase_iff
                (hT.children_nodup pOld hpOldlt)).mp ha).1 rfl
            · rw [if_neg hp3] at ha
              have h2 := (hT.children_spec vNew hvNew a ha).2
              rw [hpOld] at h2
              injection h2 with h3
              exact hp3 h3.symm
        · rw [if_neg hp2]
          by_cases hp4 : p = pOld
          · rw [if_pos hp4]
            exact (hT.children_nodup pOld hpOldlt).erase qn
          · rw [if_neg hp4]
            exact hT.children_nodup p hp
    · intro i hi
      rw [hsize3] at hi
      exact reroute_reaches hpar3 havoid (hT.reaches_root vNew hvNew) i
        (hT.reaches_root i hi)
  have hqn3 : qn < (relinkTree T qn vNew line newCost).size := by
    rw [hsize3]
    exact hqn
  have hdepth : ∀ x k, x < (relinkTree T qn vNew line newCost).size → 0 < k →
      parentIterate (relinkTree T qn vNew line newCost) k x = some qn →
      k ≤ (relinkTree T qn vNew line newCost).size := by
    intro x k hx _ hhit
    exact le_of_lt (hit_lt_size _ hstruct3 hx hhit)
  obtain ⟨hSE, hframe, hdesc⟩ := updateChildCosts_spec
    (relinkTree T qn vNew line newCost).size (relinkTree T qn vNew line newCost)
    qn hstruct3 hqn3 hdepth
  have hqnnotdesc : ¬ StrictDesc (relinkTree T qn vNew line newCost) qn qn :=
    no_strictDesc_self hroot3 (hstruct3.reaches_root qn hqn3)
  have h0notdesc : ¬ StrictDesc (relinkTree T qn vNew line newCost) qn 0 := by
    rintro ⟨k, hk, hit⟩
    rw [parentIterate_root _ hroot3 k hk] at hit
    exact absurd hit (by simp)
  have hvNewnotdesc : ¬ StrictDesc (relinkTree T qn vNew line newCost) qn vNew := by
    rintro ⟨k, hk, hit⟩
    have hcg : parentIterate (relinkTree T qn vNew line newCost) k vNew =
        parentIterate T k vNew := by
      refine parentIterate_congr k vNew ?_
      intro t j _ hj
      rw [hpar3 j, if_neg ?_]
      intro hjq
      exact havoid t (hjq ▸ hj)
    rw [hcg] at hit
    exact havoid k hit
  have hUsize : (updateChildCosts (relinkTree T qn vNew line newCost).size
      (relinkTree T qn vNew line newCost) qn).size = T.size := by
    rw [hSE.1, hsize3]
  have hUcostqn : ((updateChildCosts (relinkTree T qn vNew line newCost).size
      (relinkTree T qn vNew line newCost) qn).conf qn).cost = newCost := by
    rw [hframe qn (fun h => hqnnotdesc h.2), hcost3 qn, if_pos rfl]
  have hUcostvNew : ((updateChildCosts (relinkTree T qn vNew line newCost).size
      (relinkTree T qn vNew line newCost) qn).conf vNew).cost = (T.conf vNew).cost := by
    rw [hframe vNew (fun h => hvNewnotdesc h.2), hcost3 vNew, if_neg hvq]
  have hUcostother : ∀ j, j ≠ qn →
      ¬ StrictDesc (relinkTree T qn vNew line newCost) qn j →
      ((updateChildCosts (relinkTree T qn vNew line newCost).size
        (relinkTree T qn vNew line newCost) qn).conf j).cost = (T.conf j).cost := by
    intro j hjq hjd
    rw [hframe j (fun h => hjd h.2), hcost3 j, if_neg hjq]
  have hdesc_ne : ∀ x, StrictDesc (relinkTree T qn vNew line newCost) qn x → x ≠ qn := by
    intro x hd hx
    rw [hx] at hd
    exact hqnnotdesc hd
  have hlineR3 : ∀ x, 0 ≤ (T.conf x).lineCost → True := fun _ _ => trivial
  have hmono : ∀ j, j < T.size →
      ((updateChildCosts (relinkTree T qn vNew line newCost).size
        (relinkTree T qn vNew line newCost) qn).conf j).cost ≤ (T.conf j).cost := by
    have hP : ∀ x, x < (relinkTree T qn vNew line newCost).size →
        StrictDesc (relinkTree T qn vNew line newCost) qn x →
        ((updateChildCosts (relinkTree T qn vNew line newCost).size
          (relinkTree T qn vNew line newCost) qn).conf x).cost ≤ (T.conf x).cost := by
      refine strictDesc_induction _ hstruct3 qn _ ?_ ?_
      · intro x hx hpx
        have hd := strictDesc_parent hpx
        have hxq : x ≠ qn := hdesc_ne x hd
        have heq := hdesc x qn hx hd hpx
        have hxT : x < T.size := by rw [← hsize3]; exact hx
        have hpTx : (T.conf x).parent = some qn := by
          have := hpar3 x
          rw [if_neg hxq] at this
          rw [← this]
          exact hpx
        have hx0 : x ≠ 0 := by
          intro h0
          rw [h0, hT.root_parent] at hpTx
          exact absurd hpTx (by simp)
        obtain ⟨p', hp', _, hcost', _⟩ := hT.parent_spec x hxT hx0
        rw [hpTx] at hp'
        injection hp' with hp'2
        rw [heq, hUcostqn, hcost', ← hp'2, hline3 x, if_neg hxq]
        linarith
      · intro x y hx hpx hdy ihy
        have hd := strictDesc_step hpx hdy
        have hxq : x ≠ qn := hdesc_ne x hd
        have hyq : y ≠ qn := hdesc_ne y hdy
        have heq := hdesc x y hx hd hpx
        have hxT : x < T.size := by rw [← hsize3]; exact hx
        have hpTx : (T.conf x).parent = some y := by
          have := hpar3 x
          rw [if_neg hxq] at this
          rw [← this]
          exact hpx
        have hx0 : x ≠ 0 := by
          intro h0
          rw [h0, hT.root_parent] at hpTx
          exact absurd hpTx (by simp)
        obtain ⟨p', hp', _, hcost', _⟩ := hT.parent_spec x hxT hx0
        rw [hpTx] at hp'
        injection hp' with hp'2
        rw [heq, hcost', ← hp'2, hline3 x, if_neg hxq]
        linarith
    intro j hj
    by_cases hjq : j = qn
    · rw [hjq, hUcostqn]
      exact le_of_lt hbetter
    · by_cases hjd : StrictDesc (relinkTree T qn vNew line newCost) qn j
      · exact hP j (by rw [hsize3]; exact hj) hjd
      · rw [hUcostother j hjq hjd]
  have hUgoal := updateChildCosts_other_fields
    (relinkTree T qn vNew line newCost).size (relinkTree T qn vNew line newCost) qn
  have hR3goal := relink_goalFields T qn vNew line newCost
  have hInv : TreeInv (updateChildCosts (relinkTree T qn vNew line newCost).size
      (relinkTree T qn vNew line newCost) qn) := by
    refine ⟨by rw [hUsize]; exact hT.size_pos,
      (hSE.2 0).1.trans hroot3, ?_, ?_, ?_, ?_, ?_, ?_, ?_⟩
    · rw [hframe 0 (fun h => h0notdesc h.2), hcost3 0, if_neg (Ne.symm hqn0)]
      exact hT.root_cost
    · intro i hi hi0
      rw [hUsize] at hi
      have hi3 : i < (relinkTree T qn vNew line newCost).size := by
        rw [hsize3]
        exact hi
      obtain ⟨p, hp3, hplt3, hmem3⟩ := hstruct3.parent_spec i hi3 hi0
      refine ⟨p, (hSE.2 i).1.trans hp3, by rw [hSE.1]; exact hplt3, ?_, ?_⟩
      · by_cases hiq : i = qn
        · have hpv : p = vNew := by
            have := hpar3 i
            rw [if_pos hiq] at this
            rw [this] at hp3
            injection hp3 with h2
            exact h2.symm
          rw [hiq, hUcostqn, hpv, hUcostvNew, (hSE.2 qn).2.2.1, hline3 qn, if_pos rfl]
          exact hncost
        · by_cases hid : StrictDesc (relinkTree T qn vNew line newCost) qn i
          · rw [hdesc i p hi3 hid hp3, (hSE.2 i).2.2.1]
          · have hpq : p ≠ qn := by
              intro hpq
              rw [hpq] at hp3
              exact hid (strictDesc_parent hp3)
            have hpd : ¬ StrictDesc (relinkTree T qn vNew line newCost) qn p := by
              intro hpd
              exact hid (strictDesc_step hp3 hpd)
            have hpTi : (T.conf i).parent = some p := by
              have := hpar3 i
              rw [if_neg hiq] at this
              rw [← this]
              exact hp3
            obtain ⟨p', hp', _, hcost', _⟩ := hT.parent_spec i hi hi0
            rw [hpTi] at hp'
            injection hp' with hp'2
            rw [hUcostother i hiq hid, hUcostother p hpq hpd, (hSE.2 i).2.2.1,
              hline3 i, if_neg hiq, hcost', ← hp'2]
      · rw [(hSE.2 p).2.1]
        exact hmem3
    · intro p hp j hj
      rw [hUsize] at hp
      rw [(hSE.2 p).2.1] at hj
      have hcs := hstruct3.children_spec p (by rw [hsize3]; exact hp) j hj
      exact ⟨by rw [hSE.1]; exact hcs.1, (hSE.2 j).1.trans hcs.2⟩
    · intro p hp
      rw [(hSE.2 p).2.1]
      exact hstruct3.children_nodup p (by rw [hsize3, ← hUsize]; exact hp)
    · intro i hi
      rw [hUsize] at hi
      rw [(hSE.2 i).2.2.1, hline3 i]
      split_ifs with hiq
      · exact hline
      · exact hT.lineCost_nonneg i hi
    · intro i hi
      rw [hUsize] at hi
      by_cases hiq : i = qn
      · rw [hiq, hUcostqn]
        exact hnc0
      · by_cases hid : StrictDesc (relinkTree T qn vNew line newCost) qn i
        · have hle := hmono i hi
          have hge : 0 ≤ (T.conf i).cost := hT.cost_nonneg i hi
          have hP2 : ∀ x, x < (relinkTree T qn vNew line newCost).size →
              StrictDesc (relinkTree T qn vNew line newCost) qn x →
              0 ≤ ((updateChildCosts (relinkTree T qn vNew line newCost).size
                (relinkTree T qn vNew line newCost) qn).conf x).cost := by
            refine strictDesc_induction _ hstruct3 qn _ ?_ ?_
            · intro x hx hpx
              rw [hdesc x qn hx (strictDesc_parent hpx) hpx, hUcostqn, hline3 x]
              have hxT : x < T.size := by rw [← hsize3]; exact hx
              split_ifs with hxq
              · linarith
              · have := hT.lineCost_nonneg x hxT
                linarith
            · intro x y hx hpx hdy ihy
              rw [hdesc x y hx (strictDesc_step hpx hdy) hpx, hline3 x]
              have hxT : x < T.size := by rw [← hsize3]; exact hx
              split_ifs with hxq
              · linarith
              · have := hT.lineCost_nonneg x hxT
                linarith
          exact hP2 i (by rw [hsize3]; exact hi) hid
        · rw [hUcostother i hiq hid]
          exact hT.cost_nonneg i hi
    · intro i hi
      rw [hUsize] at hi
      exact (reachesRoot_structEq hSE i).mpr
        (hstruct3.reaches_root i (by rw [hsize3]; exact hi))
  refine ⟨hInv, hUsize, ?_, hmono, (hSE.2 0).1.trans hroot3, ?_, ?_, ?_, ?_, ?_, ?_⟩
  · intro j
    rw [(hSE.2 j).2.2.2, hstate3 j]
  · rw [hframe 0 (fun h => h0notdesc h.2), hcost3 0, if_neg (Ne.symm hqn0)]
    exact hT.root_cost
  · rw [(hSE.2 0).2.2.1, hline3 0, if_neg (Ne.symm hqn0)]
  · rw [hUgoal.1, hR3goal.1]
  · rw [hUgoal.2.1, hR3goal.2.1]
  · rw [hUgoal.2.2.1, hR3goal.2.2.1]
  · rw [hUgoal.2.2.2, hR3goal.2.2.2]

end RelinkSpec

section RewireFold

variable {S : Type} [Inhabited S]

theorem rewireStep_maintains (E : GrowEnv S) (xNew : S) (vNew : ℕ) (T0 : TreeState S)
    (hmot : ∀ a b, 0 ≤ E.motionCost a b) (hvNew : vNew < T0.size)
    (acc : TreeState S × Bool) (t : ℕ × ℤ × ℚ)
    (ht : t.1 < T0.size) (hlc : 0 ≤ t.2.2)
    (hacc : RewireMaintains T0 acc) :
    RewireMaintains T0 (rewireStep E xNew vNew acc t) := by
  simp only [rewireStep]
  generalize hl : (if E.symmetric then t.2.2
    else E.motionCost xNew ((acc.1.conf t.1).state)) = line
  generalize (if t.2.1 = 1 then true
    else if t.2.1 = 0 then
      (!E.useKNearest || E.dist ((acc.1.conf t.1).state) xNew < E.maxDistance) &&
        E.checkMotion xNew ((acc.1.conf t.1).state)
    else false) = vOk
  have hline : 0 ≤ line := by
    rw [← hl]
    split_ifs
    · exact hlc
    · exact hmot _ _
  split_ifs with h1 h2 h3
  · exact hacc
  · obtain ⟨hInv, hsz, hstate, hmono, hp0, hc0, hl0, hg1, hg2, hg3, hg4, _⟩ := hacc
    show RewireMaintains T0
      (rewireApply acc.1 t.1 vNew line ((acc.1.conf vNew).cost + line), true)
    have hR := relink_spec hInv (by rw [hsz]; exact ht) (by rw [hsz]; exact hvNew)
      hline rfl h2
    obtain ⟨hRInv, hRsz, hRstate, hRmono, hRp0, hRc0, hRl0, hRg1, hRg2, hRg3, hRg4⟩ := hR
    refine ⟨hRInv, by rw [hRsz, hsz], fun j => (hRstate j).trans (hstate j),
      fun j hj => le_trans (hRmono j (by rw [hsz]; exact hj)) (hmono j hj),
      hRp0, hRc0, hRl0.trans hl0, hRg1.trans hg1, hRg2.trans hg2,
      hRg3.trans hg3, hRg4.trans hg4, fun h => Bool.noConfusion h⟩
  · exact hacc
  · exact hacc

theorem rewire_maintains (E : GrowEnv S) (xNew : S) (vNew : ℕ) (T0 : TreeState S)
    (nbh : List ℕ) (valid : List ℤ) (lcs : List ℚ)
    (hT : TreeInv T0) (hmot : ∀ a b, 0 ≤ E.motionCost a b)
    (hvNew : vNew < T0.size) (hnbh : ∀ v ∈ nbh, v < T0.size)
    (hlcs : ∀ lc ∈ lcs, 0 ≤ lc) :
    RewireMaintains T0 (rewire E xNew vNew T0 nbh valid lcs) := by
  unfold rewire
  have hzip : ∀ t ∈ nbh.zip (valid.zip lcs), t.1 < T0.size ∧ 0 ≤ t.2.2 := by
    intro t ht
    obtain ⟨a, b, c⟩ := t
    have h1 := List.of_mem_zip ht
    have h2 := List.of_mem_zip h1.2
    exact ⟨hnbh a h1.1, hlcs c h2.2⟩
  have hgen : ∀ (l : List (ℕ × ℤ × ℚ)) (acc : TreeState S × Bool),
      (∀ t ∈ l, t.1 < T0.size ∧ 0 ≤ t.2.2) → RewireMaintains T0 acc →
      RewireMaintains T0 (l.foldl (rewireStep E xNew vNew) acc) := by
    intro l
    induction l with
    | nil => exact fun acc _ h => h
    | cons c cs ih =>
      intro acc hl hacc
      simp only [List.foldl_cons]
      refine ih _ (fun t ht => hl t (List.mem_cons_of_mem c ht)) ?_
      have hc := hl c (List.mem_cons_self c cs)
      exact rewireStep_maintains E xNew vNew T0 hmot hvNew acc c hc.1 hc.2 hacc
  exact hgen _ (T0, false) hzip
    ⟨hT, rfl, fun j => rfl, fun j _ => le_refl _, hT.root_parent, hT.root_cost,
      rfl, rfl, rfl, rfl, rfl, fun _ => rfl⟩

end RewireFold

section GoalPhase

variable {S : Type} [Inhabited S]

/-- The goal re-scan loop of grow restores the arg-min invariant: the
fold over goalConfigurations returns a goal whose cost equals the
resulting best cost and is minimal among all goal configurations. -/
theorem goalScan_goalInv (T1 : TreeState S) (hs : Bool)
    (hmem : ∀ k ∈ T1.goalConfigurations, k < T1.size)
    (hsome : ∀ g0, T1.qGoal = some g0 → g0 ∈ T1.goalConfigurations ∧
      ((T1.conf g0).cost : WithTop ℚ) ≤ T1.bestCost)
    (hnone : T1.qGoal = none → T1.goalConfigurations = []) :
    GoalInv { T1 with
      qGoal := (T1.goalConfigurations.foldl (goalScanStep T1)
        (T1.qGoal, T1.bestCost, false)).1
      bestCost := (T1.goalConfigurations.foldl (goalScanStep T1)
        (T1.qGoal, T1.bestCost, false)).2.1
      hasSolution := hs } := by
  cases hq : T1.qGoal with
  | none =>
    have hempty := hnone hq
    refine ⟨fun _ => hempty, ?_, ?_⟩
    · intro g hg
      have hg2 : (T1.goalConfigurations.foldl (goalScanStep T1)
          (none, T1.bestCost, false)).1 = some g := hg
      rw [hempty, List.foldl_nil] at hg2
      exact absurd hg2 (by simp)
    · intro k hk
      have hk2 : k ∈ T1.goalConfigurations := hk
      rw [hempty] at hk2
      exact absurd hk2 (by simp)
  | some g0 =>
    have hfold : ∀ (l : List ℕ) (acc : Option ℕ × WithTop ℚ × Bool),
        (∀ k ∈ l, k ∈ T1.goalConfigurations) →
        (∃ g, acc.1 = some g ∧ g ∈ T1.goalConfigurations ∧
          ((T1.conf g).cost : WithTop ℚ) ≤ acc.2.1) →
        (∃ g, (l.foldl (goalScanStep T1) acc).1 = some g ∧
          g ∈ T1.goalConfigurations ∧
          ((T1.conf g).cost : WithTop ℚ) ≤ (l.foldl (goalScanStep T1) acc).2.1) ∧
        (l.foldl (goalScanStep T1) acc).2.1 ≤ acc.2.1 ∧
        (∀ k ∈ l, (l.foldl (goalScanStep T1) acc).2.1 ≤
          ((T1.conf k).cost : WithTop ℚ)) := by
      intro l
      induction l with
      | nil =>
        intro acc _ hacc
        exact ⟨hacc, le_refl _, fun k hk => absurd hk (by simp)⟩
      | cons c cs ih =>
        intro acc hl hacc
        simp only [List.foldl_cons]
        by_cases hcl : ((T1.conf c).cost : WithTop ℚ) < acc.2.1
        · have hstep : goalScanStep T1 acc c =
              (some c, ((T1.conf c).cost : WithTop ℚ), true) := by
            unfold goalScanStep
            rw [if_pos hcl]
          rw [hstep]
          obtain ⟨hex, hle, hall⟩ := ih
            (some c, ((T1.conf c).cost : WithTop ℚ), true)
            (fun k hk => hl k (List.mem_cons_of_mem c hk))
            ⟨c, rfl, hl c (List.mem_cons_self c cs), le_refl _⟩
          refine ⟨hex, le_trans hle (le_of_lt hcl), ?_⟩
          intro k hk
          rcases List.mem_cons.mp hk with hk2 | hk2
          · rw [hk2]
            exact hle
          · exact hall k hk2
        · have hstep : goalScanStep T1 acc c = acc := by
            unfold goalScanStep
            rw [if_neg hcl]
          rw [hstep]
          obtain ⟨hex, hle, hall⟩ := ih acc
            (fun k hk => hl k (List.mem_cons_of_mem c hk)) hacc
          refine ⟨hex, hle, ?_⟩
          intro k hk
          rcases List.mem_cons.mp hk with hk2 | hk2
          · rw [hk2]
            exact le_trans hle (le_of_not_lt hcl)
          · exact hall k hk2
    obtain ⟨⟨g, hg1, hg2, hg3⟩, _, hall⟩ := hfold T1.goalConfigurations
      (some g0, T1.bestCost, false) (fun k hk => hk)
      ⟨g0, rfl, (hsome g0 hq).1, (hsome g0 hq).2⟩
    have hbeq : (T1.goalConfigurations.foldl (goalScanStep T1)
        (some g0, T1.bestCost, false)).2.1 = ((T1.conf g).cost : WithTop ℚ) :=
      le_antisymm (hall g hg2) hg3
    refine ⟨?_, ?_, ?_⟩
    · intro habs
      have habs2 : (T1.goalConfigurations.foldl (goalScanStep T1)
          (some g0, T1.bestCost, false)).1 = none := habs
      rw [hg1] at habs2
      exact absurd habs2 (by simp)
    · intro g' hg'
      have hgg : (T1.goalConfigurations.foldl (goalScanStep T1)
          (some g0, T1.bestCost, false)).1 = some g' := hg'
      rw [hg1] at hgg
      injection hgg with hg3b
      refine ⟨?_, ?_, ?_⟩
      · rw [← hg3b]
        exact hg2
      · show (T1.goalConfigurations.foldl (goalScanStep T1)
          (some g0, T1.bestCost, false)).2.1 = ((T1.conf g').cost : WithTop ℚ)
        rw [hbeq, ← hg3b]
      · intro k hk
        have h5 := hall k hk
        rw [hbeq] at h5
        rw [← hg3b]
        exact_mod_cast h5
    · intro k hk
      exact hmem k hk

end GoalPhase

section GoalPhaseOuter

variable {S : Type} [Inhabited S]

theorem growGoalPhase_frame (E : GrowEnv S) (T : TreeState S) (vNew : ℕ) (xNew : S)
    (b : Bool) : (growGoalPhase E T vNew xNew b).size = T.size ∧
    (growGoalPhase E T vNew xNew b).conf = T.conf := by
  simp only [growGoalPhase]
  split_ifs <;> exact ⟨rfl, rfl⟩

theorem treeInv_congr {T2 T : TreeState S} (hsize : T2.size = T.size)
    (hconf : T2.conf = T.conf) (hT : TreeInv T) : TreeInv T2 := by
  have hpi : ∀ k i, parentIterate T2 k i = parentIterate T k i := by
    intro k i
    exact parentIterate_congr k i (fun t j _ _ => by rw [hconf])
  refine ⟨by rw [hsize]; exact hT.size_pos, by rw [hconf]; exact hT.root_parent,
    by rw [hconf]; exact hT.root_cost, ?_, ?_, ?_, ?_, ?_, ?_⟩
  · intro i hi hi0
    rw [hsize] at hi
    rw [hconf]
    obtain ⟨p, hp, hplt, hc, hm⟩ := hT.parent_spec i hi hi0
    exact ⟨p, hp, by rw [hsize]; exact hplt, hc, hm⟩
  · intro p hp j hj
    rw [hsize] at hp
    rw [hconf] at hj
    obtain ⟨h1, h2⟩ := hT.children_spec p hp j hj
    exact ⟨by rw [hsize]; exact h1, by rw [hconf]; exact h2⟩
  · intro p hp
    rw [hconf]
    exact hT.children_nodup p (by rw [← hsize]; exact hp)
  · intro i hi
    rw [hconf]
    exact hT.lineCost_nonneg i (by rw [← hsize]; exact hi)
  · intro i hi
    rw [hconf]
    exact hT.cost_nonneg i (by rw [← hsize]; exact hi)
  · intro i hi
    rw [hsize] at hi
    obtain ⟨k, hk⟩ := hT.reaches_root i hi
    exact ⟨k, by rw [hpi]; exact hk⟩

end GoalPhaseOuter

section GoalPhaseInv

variable {S : Type} [Inhabited S]

/-- The goal bookkeeping phase of grow preserves the goal invariant,
given the facts the preceding rewire stage guarantees: the goal fields
are untouched, costs of goal configurations have not increased, and when
checkForSolution is false they are exactly unchanged. -/
theorem growGoalPhase_goalInv (E : GrowEnv S) {R T : TreeState S} (vNew : ℕ)
    (xNew : S) (b : Bool) (hG : GoalInv T)
    (hconfigs : R.goalConfigurations = T.goalConfigurations)
    (hqgoal : R.qGoal = T.qGoal) (hbest : R.bestCost = T.bestCost)
    (hmemlt : ∀ k ∈ T.goalConfigurations, k < R.size)
    (hvNew : vNew < R.size)
    (hmono : ∀ k ∈ T.goalConfigurations, (R.conf k).cost ≤ (T.conf k).cost)
    (hfalse : b = false → ∀ k ∈ T.goalConfigurations,
      (R.conf k).cost = (T.conf k).cost) :
    GoalInv (growGoalPhase E R vNew xNew b) := by
  by_cases hsat : E.goalSat xNew = true
  · simp only [growGoalPhase, hsat, Bool.or_true, eq_self_iff_true, if_true]
    by_cases hn : R.qGoal = none
    · have hTnone : T.qGoal = none := by rw [← hqgoal]; exact hn
      have hTempty := hG.none_empty hTnone
      have hRempty : R.goalConfigurations = [] := by rw [hconfigs]; exact hTempty
      rw [if_pos (by simp [hRempty, hn])]
      refine ⟨fun h => Option.noConfusion h, ?_, ?_⟩
      · intro g hg
        have hg2 : some vNew = some g := hg
        injection hg2 with hgv
        refine ⟨?_, ?_, ?_⟩
        · show g ∈ R.goalConfigurations ++ [vNew]
          rw [← hgv]
          exact List.mem_append_right _ (List.mem_singleton_self vNew)
        · show ((R.conf vNew).cost : WithTop ℚ) = ((R.conf g).cost : WithTop ℚ)
          rw [← hgv]
        · intro k hk
          have hk2 : k ∈ R.goalConfigurations ++ [vNew] := hk
          rw [hRempty] at hk2
          simp only [List.nil_append, List.mem_singleton] at hk2
          show (R.conf g).cost ≤ (R.conf k).cost
          rw [hk2, ← hgv]
      · intro k hk
        have hk2 : k ∈ R.goalConfigurations ++ [vNew] := hk
        show k < R.size
        rcases List.mem_append.mp hk2 with h | h
        · exact hmemlt k (by rw [← hconfigs]; exact h)
        · rw [List.mem_singleton.mp h]
          exact hvNew
    · obtain ⟨g0, hq⟩ := Option.ne_none_iff_exists'.mp hn
      rw [if_neg (by simp [hq])]
      have hmem : ∀ k ∈ R.goalConfigurations ++ [vNew], k < R.size := by
        intro k hk
        rcases List.mem_append.mp hk with h | h
        · exact hmemlt k (by rw [← hconfigs]; exact h)
        · rw [List.mem_singleton.mp h]
          exact hvNew
      have hTq : T.qGoal = some g0 := by rw [← hqgoal]; exact hq
      obtain ⟨hm, hb2, _⟩ := hG.goal_spec g0 hTq
      have hsome : ∀ g', R.qGoal = some g' →
          g' ∈ R.goalConfigurations ++ [vNew] ∧
          ((R.conf g').cost : WithTop ℚ) ≤ R.bestCost := by
        intro g' hg'
        rw [hq] at hg'
        injection hg' with hgg
        constructor
        · refine List.mem_append_left _ ?_
          rw [← hgg, hconfigs]
          exact hm
        · rw [← hgg, hbest, hb2]
          exact_mod_cast hmono g0 hm
      have hnone : R.qGoal = none → R.goalConfigurations ++ [vNew] = [] := by
        intro h
        rw [hq] at h
        exact absurd h (by simp)
      exact goalScan_goalInv
        { R with goalConfigurations := R.goalConfigurations ++ [vNew] } _
        hmem hsome hnone
  · have hsat' : E.goalSat xNew = false := by
      cases h : E.goalSat xNew
      · rfl
      · exact absurd h hsat
    simp only [growGoalPhase, hsat', Bool.or_false, Bool.false_eq_true, if_false]
    have hmem2 : ∀ k ∈ R.goalConfigurations, k < R.size := by
      intro k hk
      exact hmemlt k (by rw [← hconfigs]; exact hk)
    have hnone2 : R.qGoal = none → R.goalConfigurations = [] := by
      intro h
      rw [hconfigs]
      exact hG.none_empty (by rw [← hqgoal]; exact h)
    have hsome2 : ∀ g', R.qGoal = some g' → g' ∈ R.goalConfigurations ∧
        ((R.conf g').cost : WithTop ℚ) ≤ R.bestCost := by
      intro g' hg'
      have hTg : T.qGoal = some g' := by rw [← hqgoal]; exact hg'
      obtain ⟨hm, hb2, _⟩ := hG.goal_spec g' hTg
      refine ⟨by rw [hconfigs]; exact hm, ?_⟩
      rw [hbest, hb2]
      exact_mod_cast hmono g' hm
    by_cases hb : b = true
    · rw [if_pos hb]
      split_ifs with hcond
      · exfalso
        simp only [Bool.and_eq_true, Bool.not_eq_true', Option.isNone_iff_eq_none]
          at hcond
        have h1 := hcond.1
        have h2 := hcond.2
        have hTq : T.qGoal = none := by rw [← hqgoal]; exact h2
        have he := hG.none_empty hTq
        rw [hconfigs, he] at h1
        simp at h1
      · exact goalScan_goalInv R _ hmem2 hsome2 hnone2
    · have hbf : b = false := by
        cases b
        · rfl
        · exact absurd rfl hb
      rw [if_neg hb]
      have heq := hfalse hbf
      refine ⟨?_, ?_, ?_⟩
      · intro h
        rw [hconfigs]
        exact hG.none_empty (by rw [← hqgoal]; exact h)
      · intro g hg
        have hTg : T.qGoal = some g := by rw [← hqgoal]; exact hg
        obtain ⟨hm, hb2, hmin⟩ := hG.goal_spec g hTg
        refine ⟨by rw [hconfigs]; exact hm, ?_, ?_⟩
        · rw [hbest, hb2, heq g hm]
        · intro k hk
          rw [hconfigs] at hk
          rw [heq g hm, heq k hk]
          exact hmin k hk
      · intro k hk
        rw [hconfigs] at hk
        exact hmemlt k hk

end GoalPhaseInv

section ChooseParentSpec

variable {S : Type} [Inhabited S]

/-- The choose-parent loop always returns a parent inside the arena, a
nonnegative line cost, the additive cost equation through that parent,
and a cache of nonnegative line costs. -/
theorem chooseParent_spec (E : GrowEnv S) (T : TreeState S) (vNearest : ℕ)
    (xNew : S) (nbh : List ℕ) (hT : TreeInv T)
    (hmot : ∀ a b, 0 ≤ E.motionCost a b) (hvn : vNearest < T.size)
    (hnbh : ∀ v ∈ nbh, v < T.size) :
    (chooseParent E T vNearest xNew nbh).parent < T.size ∧
    0 ≤ (chooseParent E T vNearest xNew nbh).lineCost ∧
    (chooseParent E T vNearest xNew nbh).cost =
      (T.conf (chooseParent E T vNearest xNew nbh).parent).cost +
        (chooseParent E T vNearest xNew nbh).lineCost ∧
    ∀ lc ∈ (chooseParent E T vNearest xNew nbh).lineCosts, 0 ≤ lc := by
  unfold chooseParent
  have hcN : 0 ≤ (chooseParentInit E T vNearest xNew).cost := by
    show 0 ≤ (T.conf vNearest).cost + E.motionCost (T.conf vNearest).state xNew
    have h1 := hT.cost_nonneg vNearest hvn
    have h2 := hmot (T.conf vNearest).state xNew
    linarith
  have hstep : ∀ (st : ChooseParentState) (qn : ℕ), qn < T.size →
      st.parent < T.size ∧ 0 ≤ st.lineCost ∧
        st.cost = (T.conf st.parent).cost + st.lineCost ∧
        (∀ lc ∈ st.lineCosts, 0 ≤ lc) →
      (chooseParentStep E T vNearest xNew (chooseParentInit E T vNearest xNew).cost
          st qn).parent < T.size ∧
      0 ≤ (chooseParentStep E T vNearest xNew
          (chooseParentInit E T vNearest xNew).cost st qn).lineCost ∧
      (chooseParentStep E T vNearest xNew
          (chooseParentInit E T vNearest xNew).cost st qn).cost =
        (T.conf (chooseParentStep E T vNearest xNew
          (chooseParentInit E T vNearest xNew).cost st qn).parent).cost +
        (chooseParentStep E T vNearest xNew
          (chooseParentInit E T vNearest xNew).cost st qn).lineCost ∧
      ∀ lc ∈ (chooseParentStep E T vNearest xNew
          (chooseParentInit E T vNearest xNew).cost st qn).lineCosts, 0 ≤ lc := by
    intro st qn hqn hst
    obtain ⟨h1, h2, h3, h4⟩ := hst
    simp only [chooseParentStep]
    split_ifs with hc1 hc2 hc3
    · refine ⟨h1, h2, h3, ?_⟩
      intro lc hlc
      have hlc2 : lc ∈ st.lineCosts ++ [(chooseParentInit E T vNearest xNew).cost] :=
        hlc
      rcases List.mem_append.mp hlc2 with h | h
      · exact h4 lc h
      · rw [List.mem_singleton.mp h]
        exact hcN
    · refine ⟨hqn, hmot _ _, rfl, ?_⟩
      intro lc hlc
      have hlc2 : lc ∈ st.lineCosts ++ [E.motionCost (T.conf qn).state xNew] := hlc
      rcases List.mem_append.mp hlc2 with h | h
      · exact h4 lc h
      · rw [List.mem_singleton.mp h]
        exact hmot _ _
    · refine ⟨h1, h2, h3, ?_⟩
      intro lc hlc
      have hlc2 : lc ∈ st.lineCosts ++ [E.motionCost (T.conf qn).state xNew] := hlc
      rcases List.mem_append.mp hlc2 with h | h
      · exact h4 lc h
      · rw [List.mem_singleton.mp h]
        exact hmot _ _
    · refine ⟨h1, h2, h3, ?_⟩
      intro lc hlc
      have hlc2 : lc ∈ st.lineCosts ++ [E.motionCost (T.conf qn).state xNew] := hlc
      rcases List.mem_append.mp hlc2 with h | h
      · exact h4 lc h
      · rw [List.mem_singleton.mp h]
        exact hmot _ _
  have hgen : ∀ (l : List ℕ) (st : ChooseParentState), (∀ v ∈ l, v < T.size) →
      (st.parent < T.size ∧ 0 ≤ st.lineCost ∧
        st.cost = (T.conf st.parent).cost + st.lineCost ∧
        ∀ lc ∈ st.lineCosts, 0 ≤ lc) →
      ((l.foldl (chooseParentStep E T vNearest xNew
          (chooseParentInit E T vNearest xNew).cost) st).parent < T.size ∧
      0 ≤ (l.foldl (chooseParentStep E T vNearest xNew
          (chooseParentInit E T vNearest xNew).cost) st).lineCost ∧
      (l.foldl (chooseParentStep E T vNearest xNew
          (chooseParentInit E T vNearest xNew).cost) st).cost =
        (T.conf (l.foldl (chooseParentStep E T vNearest xNew
          (chooseParentInit E T vNearest xNew).cost) st).parent).cost +
        (l.foldl (chooseParentStep E T vNearest xNew
          (chooseParentInit E T vNearest xNew).cost) st).lineCost ∧
      ∀ lc ∈ (l.foldl (chooseParentStep E T vNearest xNew
          (chooseParentInit E T vNearest xNew).cost) st).lineCosts, 0 ≤ lc) := by
    intro l
    induction l with
    | nil => exact fun st _ h => h
    | cons c cs ih =>
      intro st hl hst
      simp only [List.foldl_cons]
      exact ih _ (fun v hv => hl v (List.mem_cons_of_mem c hv))
        (hstep st c (hl c (List.mem_cons_self c cs)) hst)
  refine hgen nbh (chooseParentInit E T vNearest xNew) hnbh ⟨hvn, hmot _ _, rfl, ?_⟩
  intro lc hlc
  have h2 : lc ∈ ([] : List ℚ) := hlc
  exact absurd h2 (by simp)

end ChooseParentSpec

section InsertLeaf

variable {S : Type} [Inhabited S]

/-- Inserting the new configuration as a fresh leaf under a parent that
satisfies the additive cost equation preserves the tree invariant; the
existing configurations keep their parent, cost, line cost and state,
and the goal bookkeeping fields are untouched. -/
theorem insert_leaf_spec (T : TreeState S) (hT : TreeInv T) (p : ℕ) (x : S)
    (c lc : ℚ) (hp : p < T.size) (hlc : 0 ≤ lc) (hc : c = (T.conf p).cost + lc)
    (T2 : TreeState S)
    (hT2 : T2 = appendChild
      { T with size := T.size + 1
               conf := fun j => if j = T.size then
                   { state := x, parent := some p, cost := c, lineCost := lc,
                     children := [] }
                 else T.conf j } p T.size) :
    TreeInv T2 ∧ T2.size = T.size + 1 ∧
    (∀ j, j ≠ T.size → (T2.conf j).cost = (T.conf j).cost) ∧
    (∀ j, j ≠ T.size → (T2.conf j).parent = (T.conf j).parent) ∧
    (∀ j, j ≠ T.size → (T2.conf j).lineCost = (T.conf j).lineCost) ∧
    (∀ j, j ≠ T.size → (T2.conf j).state = (T.conf j).state) ∧
    T2.goalConfigurations = T.goalConfigurations ∧ T2.qGoal = T.qGoal ∧
    T2.bestCost = T.bestCost ∧ T2.hasSolution = T.hasSolution := by
  subst hT2
  have hpne : p ≠ T.size := by omega
  have hconf2 : ∀ j, ((appendChild
      { T with size := T.size + 1
               conf := fun j => if j = T.size then
                   { state := x, parent := some p, cost := c, lineCost := lc,
                     children := [] }
                 else T.conf j } p T.size).conf j) =
      if j = p then { T.conf p with children := (T.conf p).children ++ [T.size] }
      else if j = T.size then
        { state := x, parent := some p, cost := c, lineCost := lc, children := [] }
      else T.conf j := by
    intro j
    unfold appendChild
    by_cases hj : j = p
    · rw [hj, setConf_conf_eq, if_pos rfl]
      have hT1p : (({ T with
                      size := T.size + 1,
                      conf := fun j => if j = T.size then
                          { state := x, parent := some p, cost := c,
                            lineCost := lc, children := [] }
                        else T.conf j } : TreeState S).conf p) = T.conf p := by
        show (if p = T.size then _ else T.conf p) = T.conf p
        rw [if_neg hpne]
      rw [hT1p]
    · rw [setConf_conf_ne _ _ hj, if_neg hj]
  have hcostF : ∀ j, j ≠ T.size → ((appendChild
      { T with size := T.size + 1
               conf := fun j => if j = T.size then
                   { state := x, parent := some p, cost := c, lineCost := lc,
                     children := [] }
                 else T.conf j } p T.size).conf j).cost = (T.conf j).cost := by
    intro j hj
    rw [hconf2 j]
    split_ifs with ha
    · show (T.conf p).cost = (T.conf j).cost
      rw [ha]
    · rfl
  have hparF : ∀ j, j ≠ T.size → ((appendChild
      { T with size := T.size + 1
               conf := fun j => if j = T.size then
                   { state := x, parent := some p, cost := c, lineCost := lc,
                     children := [] }
                 else T.conf j } p T.size).conf j).parent = (T.conf j).parent := by
    intro j hj
    rw [hconf2 j]
    split_ifs with ha
    · show (T.conf p).parent = (T.conf j).parent
      rw [ha]
    · rfl
  have hlineF : ∀ j, j ≠ T.size → ((appendChild
      { T with size := T.size + 1
               conf := fun j => if j = T.size then
                   { state := x, parent := some p, cost := c, lineCost := lc,
                     children := [] }
                 else T.conf j } p T.size).conf j).lineCost = (T.conf j).lineCost := by
    intro j hj
    rw [hconf2 j]
    split_ifs with ha
    · show (T.conf p).lineCost = (T.conf j).lineCost
      rw [ha]
    · rfl
  have hstateF : ∀ j, j ≠ T.size → ((appendChild
      { T with size := T.size + 1
               conf := fun j => if j = T.size then
                   { state := x, parent := some p, cost := c, lineCost := lc,
                     children := [] }
                 else T.conf j } p T.size).conf j).state = (T.conf j).state := by
    intro j hj
    rw [hconf2 j]
    split_ifs with ha
    · show (T.conf p).state = (T.conf j).state
      rw [ha]
    · rfl
  have hleafpar : ((appendChild
      { T with size := T.size + 1
               conf := fun j => if j = T.size then
                   { state := x, parent := some p, cost := c, lineCost := lc,
                     children := [] }
                 else T.conf j } p T.size).conf T.size).parent = some p := by
    rw [hconf2 T.size, if_neg (fun hh => hpne hh.symm), if_pos rfl]
  refine ⟨⟨?_, ?_, ?_, ?_, ?_, ?_, ?_, ?_, ?_⟩, rfl, hcostF, hparF, hlineF, hstateF,
    rfl, rfl, rfl, rfl⟩
  · show 0 < T.size + 1
    omega
  · have h0 : (0 : ℕ) ≠ T.size := by
      have := hT.size_pos
      omega
    rw [hparF 0 h0]
    exact hT.root_parent
  · have h0 : (0 : ℕ) ≠ T.size := by
      have := hT.size_pos
      omega
    rw [hcostF 0 h0]
    exact hT.root_cost
  · intro i hi hi0
    have hi' : i < T.size + 1 := hi
    by_cases hiv : i = T.size
    · refine ⟨p, ?_, by show p < T.size + 1; omega, ?_, ?_⟩
      · rw [hiv]
        exact hleafpar
      · rw [hconf2 i, hconf2 p, if_pos rfl,
          if_neg (by rw [hiv]; exact fun hh => hpne hh.symm), if_pos hiv]
        show c = (T.conf p).cost + lc
        exact hc
      · rw [hconf2 p, if_pos rfl]
        show i ∈ (T.conf p).children ++ [T.size]
        rw [hiv]
        exact List.mem_append_right _ (List.mem_singleton_self _)
    · have hilt : i < T.size := by omega
      obtain ⟨q, hq, hqlt, hqc, hqm⟩ := hT.parent_spec i hilt hi0
      refine ⟨q, by rw [hparF i hiv]; exact hq, by show q < T.size + 1; omega, ?_, ?_⟩
      · rw [hcostF i hiv, hcostF q (by omega), hlineF i hiv]
        exact hqc
      · rw [hconf2 q]
        split_ifs with ha hb
        · show i ∈ (T.conf p).children ++ [T.size]
          refine List.mem_append_left _ ?_
          rw [← ha]
          exact hqm
        · omega
        · exact hqm
  · intro q hq j hj
    have hq' : q < T.size + 1 := hq
    rw [hconf2 q] at hj
    split_ifs at hj with ha hb
    · have hj2 : j ∈ (T.conf p).children ++ [T.size] := hj
      rcases List.mem_append.mp hj2 with h | h
      · obtain ⟨hjl, hjp⟩ := hT.children_spec p hp j h
        refine ⟨by show j < T.size + 1; omega, ?_⟩
        rw [hparF j (by omega), ha]
        exact hjp
      · have hj3 := List.mem_singleton.mp h
        refine ⟨by rw [hj3]; show T.size < T.size + 1; omega, ?_⟩
        rw [hj3, hleafpar, ha]
    · exact absurd hj (by simp)
    · obtain ⟨hjl, hjp⟩ := hT.children_spec q (by omega) j hj
      exact ⟨by show j < T.size + 1; omega, by rw [hparF j (by omega)]; exact hjp⟩
  · intro q hq
    have hq' : q < T.size + 1 := hq
    rw [hconf2 q]
    split_ifs with ha hb
    · show ((T.conf p).children ++ [T.size]).Nodup
      rw [List.nodup_append]
      refine ⟨hT.children_nodup p hp, List.nodup_singleton _, ?_⟩
      intro a haa hbb
      rw [List.mem_singleton.mp hbb] at haa
      have := (hT.children_spec p hp _ haa).1
      omega
    · exact List.nodup_nil
    · exact hT.children_nodup q (by omega)
  · intro i hi
    have hi' : i < T.size + 1 := hi
    by_cases hiv : i = T.size
    · rw [hiv, hconf2 T.size, if_neg (fun hh => hpne hh.symm), if_pos rfl]
      exact hlc
    · rw [hlineF i hiv]
      exact hT.lineCost_nonneg i (by omega)
  · intro i hi
    have hi' : i < T.size + 1 := hi
    by_cases hiv : i = T.size
    · rw [hiv, hconf2 T.size, if_neg (fun hh => hpne hh.symm), if_pos rfl]
      show 0 ≤ c
      have := hT.cost_nonneg p hp
      linarith
    · rw [hcostF i hiv]
      exact hT.cost_nonneg i (by omega)
  · have hrr : ∀ i, i < T.size → reachesRoot (appendChild
        { T with size := T.size + 1
                 conf := fun j => if j = T.size then
                     { state := x, parent := some p, cost := c, lineCost := lc,
                       children := [] }
                   else T.conf j } p T.size) i := by
      intro i hi
      obtain ⟨k, hk⟩ := hT.reaches_root i hi
      refine ⟨k, ?_⟩
      rw [parentIterate_congr k i ?_]
      · exact hk
      · intro t j _ hj
        have hjlt : j < T.size := chain_lt T (treeInv_to_struct hT) t hi hj
        exact hparF j (by omega)
    intro i hi
    have hi' : i < T.size + 1 := hi
    by_cases hiv : i = T.size
    · obtain ⟨k, hk⟩ := hrr p hp
      refine ⟨k + 1, ?_⟩
      rw [parentIterate_succ_some _ (by rw [hiv]; exact hleafpar)]
      exact hk
    · exact hrr i (by omega)

end InsertLeaf

section GrowSpec

variable {S : Type} [Inhabited S]

/-- Master specification of one grow iteration: the tree invariant is
preserved, the goal invariant is preserved, and the root configuration
keeps its parent (none), cost (zero), line cost and state. -/
theorem grow_spec (E : GrowEnv S) (T : TreeState S) (vNearest : ℕ) (xNew : S)
    (nbh : List ℕ) (hT : TreeInv T) (hmot : ∀ a b, 0 ≤ E.motionCost a b)
    (hvn : vNearest < T.size) (hnbh : ∀ v ∈ nbh, v < T.size) :
    TreeInv (grow E T vNearest xNew nbh) ∧
    (GoalInv T → GoalInv (grow E T vNearest xNew nbh)) ∧
    ((grow E T vNearest xNew nbh).conf 0).parent = none ∧
    ((grow E T vNearest xNew nbh).conf 0).cost = 0 ∧
    ((grow E T vNearest xNew nbh).conf 0).lineCost = (T.conf 0).lineCost ∧
    ((grow E T vNearest xNew nbh).conf 0).state = (T.conf 0).state := by
  obtain ⟨hcp1, hcp2, hcp3, hcp4⟩ :=
    chooseParent_spec E T vNearest xNew nbh hT hmot hvn hnbh
  set cp := chooseParent E T vNearest xNew nbh with hcpdef
  obtain ⟨hI2, hsz2, hcF, hpF, hlF, hsF, hg1, hg2, hg3, hg4⟩ :=
    insert_leaf_spec T hT cp.parent xNew cp.cost cp.lineCost hcp1 hcp2 hcp3 _ rfl
  set T2b := appendChild
    { T with
      size := T.size + 1
      conf := fun j => if j = T.size then
          { state := xNew, parent := some cp.parent, cost := cp.cost
            lineCost := cp.lineCost, children := [] }
        else T.conf j } cp.parent T.size with hT2def
  obtain ⟨hRInv, hRsz, hRstate, hRmono, hRp0, hRc0, hRl0, hRg1, hRg2, hRg3, hRg4,
    hRfb⟩ := rewire_maintains E xNew T.size T2b nbh cp.validNeighbor cp.lineCosts
      hI2 hmot (by rw [hsz2]; omega)
      (fun v hv => by rw [hsz2]; have := hnbh v hv; omega) hcp4
  set res := rewire E xNew T.size T2b nbh cp.validNeighbor cp.lineCosts with hresdef
  have hgrow : grow E T vNearest xNew nbh =
      growGoalPhase E res.1 T.size xNew res.2 := rfl
  have hfrm := growGoalPhase_frame E res.1 T.size xNew res.2
  have h0 : (0 : ℕ) ≠ T.size := by
    have := hT.size_pos
    omega
  rw [hgrow]
  refine ⟨treeInv_congr hfrm.1 hfrm.2 hRInv, ?_, ?_, ?_, ?_, ?_⟩
  · intro hGoal
    refine growGoalPhase_goalInv E T.size xNew res.2 hGoal (hRg1.trans hg1)
      (hRg2.trans hg2) (hRg3.trans hg3) ?_ ?_ ?_ ?_
    · intro k hk
      have hklt := hGoal.mem_lt k hk
      rw [hRsz, hsz2]
      omega
    · rw [hRsz, hsz2]
      omega
    · intro k hk
      have hklt := hGoal.mem_lt k hk
      have h1 := hRmono k (by rw [hsz2]; omega)
      rw [hcF k (by omega)] at h1
      exact h1
    · intro hb k hk
      have hklt := hGoal.mem_lt k hk
      rw [hRfb hb]
      exact hcF k (by omega)
  · rw [hfrm.2]
    exact hRp0
  · rw [hfrm.2]
    exact hRc0
  · rw [hfrm.2]
    exact hRl0.trans (hlF 0 h0)
  · rw [hfrm.2]
    exact (hRstate 0).trans (hsF 0 h0)

end GrowSpec

section ConcreteInv

theorem treeInv_initTree {S : Type} [Inhabited S] (x : S) : TreeInv (initTree x) := by
  refine ⟨Nat.one_pos, rfl, rfl, ?_, ?_, ?_, ?_, ?_, ?_⟩
  · intro i hi hi0
    have hi2 : i < 1 := hi
    omega
  · intro p _ j hj
    have hj2 : j ∈ ([] : List ℕ) := hj
    exact absurd hj2 (by simp)
  · intro p _
    exact List.nodup_nil
  · intro i _
    exact le_refl 0
  · intro i _
    exact le_refl 0
  · intro i hi
    have hi2 : i < 1 := hi
    have hi0 : i = 0 := by omega
    subst hi0
    exact ⟨0, rfl⟩

theorem treeInv_exTree : TreeInv exTree := by
  refine ⟨?_, rfl, rfl, ?_, ?_, ?_, ?_, ?_, ?_⟩
  · norm_num [exTree]
  · intro i hi hi0
    have hi3 : i < 3 := hi
    interval_cases i
    · exact absurd rfl hi0
    · exact ⟨0, rfl, by norm_num [exTree], by norm_num [exTree],
        List.mem_singleton_self 1⟩
    · exact ⟨1, rfl, by norm_num [exTree], by norm_num [exTree],
        List.mem_singleton_self 2⟩
  · intro p hp j hj
    have hp3 : p < 3 := hp
    interval_cases p
    · have hj2 : j ∈ [1] := hj
      rw [List.mem_singleton.mp hj2]
      exact ⟨by norm_num [exTree], rfl⟩
    · have hj2 : j ∈ [2] := hj
      rw [List.mem_singleton.mp hj2]
      exact ⟨by norm_num [exTree], rfl⟩
    · have hj2 : j ∈ ([] : List ℕ) := hj
      exact absurd hj2 (by simp)
  · intro p hp
    have hp3 : p < 3 := hp
    interval_cases p
    · exact List.nodup_singleton 1
    · exact List.nodup_singleton 2
    · exact List.nodup_nil
  · intro i hi
    have hi3 : i < 3 := hi
    interval_cases i <;> norm_num [exTree]
  · intro i hi
    have hi3 : i < 3 := hi
    interval_cases i <;> norm_num [exTree]
  · intro i hi
    have hi3 : i < 3 := hi
    interval_cases i
    · exact ⟨0, rfl⟩
    · exact ⟨1, rfl⟩
    · exact ⟨2, rfl⟩

theorem goalInv_exTree : GoalInv exTree := by
  refine ⟨?_, ?_, ?_⟩
  · intro h
    exact Option.noConfusion h
  · intro g hg
    have hg2 : some 2 = some g := hg
    injection hg2 with hgg
    subst hgg
    refine ⟨List.mem_singleton_self 2, ?_, ?_⟩
    · show ((30 : ℚ) : WithTop ℚ) = ((exTree.conf 2).cost : WithTop ℚ)
      norm_num [exTree]
    · intro k hk
      have hk2 : k ∈ [2] := hk
      rw [List.mem_singleton.mp hk2]
  · intro k hk
    have hk2 : k ∈ [2] := hk
    rw [List.mem_singleton.mp hk2]
    norm_num [exTree]

end ConcreteInv

/-- C1: the QRRT* tree invariant holds initially (init inserts qStart as
the root with identity cost) and is preserved by every grow call: the
parent pointers form an in-tree rooted at qStart, and every non-root
configuration c satisfies c.cost = combineCosts(c.parent.cost, c.lineCost)
(the path-length objective's combineCosts is +) and lies in its parent's
children list; rewiring with updateChildCosts re-establishes the cost
equation on the whole subtree. -/
theorem tree_invariant_preserved {S : Type} [Inhabited S] (E : GrowEnv S)
    (T : TreeState S) (vNearest : ℕ) (xNew xStart : S) (nbh : List ℕ)
    (hmot : ∀ a b, 0 ≤ E.motionCost a b) (hT : TreeInv T)
    (hvn : vNearest < T.size) (hnbh : ∀ v ∈ nbh, v < T.size) :
    TreeInv (initTree xStart) ∧ TreeInv (grow E T vNearest xNew nbh) :=
  ⟨treeInv_initTree xStart, (grow_spec E T vNearest xNew nbh hT hmot hvn hnbh).1⟩

theorem tree_invariant_preserved_witness :
    (∀ a b : ℚ, 0 ≤ exEnv.motionCost a b) ∧ TreeInv exTree ∧ 1 < exTree.size ∧
    (∀ v ∈ [1, 2, 0], v < exTree.size) ∧
    (TreeInv (initTree (0 : ℚ)) ∧ TreeInv (grow exEnv exTree 1 16 [1, 2, 0])) :=
  ⟨fun a b => abs_nonneg (b - a), treeInv_exTree, by norm_num [exTree],
    by intro v hv; fin_cases hv <;> norm_num [exTree],
    tree_invariant_preserved exEnv exTree 1 16 0 [1, 2, 0]
      (fun a b => abs_nonneg (b - a)) treeInv_exTree (by norm_num [exTree])
      (by intro v hv; fin_cases hv <;> norm_num [exTree])⟩

/-- C2: grow preserves the goal bookkeeping invariant, and in particular
after every grow call in which at least one goal-satisfying configuration
exists, qGoal is a minimum-cost element of goalConfigurations and
bestCost equals that minimum cost — the re-scan of goalConfigurations
restores qGoal = arg min cost even when a rewire changed the cost of an
existing goal configuration. -/
theorem goal_bookkeeping_argmin {S : Type} [Inhabited S] (E : GrowEnv S)
    (T : TreeState S) (vNearest : ℕ) (xNew : S) (nbh : List ℕ)
    (hmot : ∀ a b, 0 ≤ E.motionCost a b) (hT : TreeInv T) (hG : GoalInv T)
    (hvn : vNearest < T.size) (hnbh : ∀ v ∈ nbh, v < T.size) :
    GoalInv (grow E T vNearest xNew nbh) ∧
    ((grow E T vNearest xNew nbh).goalConfigurations ≠ [] →
      ∃ g, (grow E T vNearest xNew nbh).qGoal = some g ∧
        g ∈ (grow E T vNearest xNew nbh).goalConfigurations ∧
        (grow E T vNearest xNew nbh).bestCost =
          (((grow E T vNearest xNew nbh).conf g).cost : WithTop ℚ) ∧
        ∀ k ∈ (grow E T vNearest xNew nbh).goalConfigurations,
          ((grow E T vNearest xNew nbh).conf g).cost ≤
            ((grow E T vNearest xNew nbh).conf k).cost) := by
  have hGI := (grow_spec E T vNearest xNew nbh hT hmot hvn hnbh).2.1 hG
  refine ⟨hGI, ?_⟩
  intro hne
  cases hq : (grow E T vNearest xNew nbh).qGoal with
  | none => exact absurd (hGI.none_empty hq) hne
  | some g =>
    obtain ⟨hm, hb, hmin⟩ := hGI.goal_spec g hq
    exact ⟨g, rfl, hm, hb, hmin⟩

theorem goal_bookkeeping_argmin_witness :
    (∀ a b : ℚ, 0 ≤ exEnv.motionCost a b) ∧ TreeInv exTree ∧ GoalInv exTree ∧
    (GoalInv (grow exEnv exTree 1 16 [1, 2, 0]) ∧
      ((grow exEnv exTree 1 16 [1, 2, 0]).goalConfigurations ≠ [] →
        ∃ g, (grow exEnv exTree 1 16 [1, 2, 0]).qGoal = some g ∧
          g ∈ (grow exEnv exTree 1 16 [1, 2, 0]).goalConfigurations ∧
          (grow exEnv exTree 1 16 [1, 2, 0]).bestCost =
            (((grow exEnv exTree 1 16 [1, 2, 0]).conf g).cost : WithTop ℚ) ∧
          ∀ k ∈ (grow exEnv exTree 1 16 [1, 2, 0]).goalConfigurations,
            ((grow exEnv exTree 1 16 [1, 2, 0]).conf g).cost ≤
              ((grow exEnv exTree 1 16 [1, 2, 0]).conf k).cost)) :=
  ⟨fun a b => abs_nonneg (b - a), treeInv_exTree, goalInv_exTree,
    goal_bookkeeping_argmin exEnv exTree 1 16 [1, 2, 0]
      (fun a b => abs_nonneg (b - a)) treeInv_exTree goalInv_exTree
      (by norm_num [exTree]) (by intro v hv; fin_cases hv <;> norm_num [exTree])⟩

/-- C3: counterexample to ``rewire never affects the start or goal
vertices''.  In the concrete tree exTree the configuration 2 is a goal
configuration (it is qGoal), yet the grow call with sample 16 rewires it
through the new vertex: its parent, cost and lineCost all change.  The
rewire loop of the canonical multilevel QRRTStarImpl only skips the new
vertex's own parent; no start/goal guard exists (the deprecated
quotientspace copy guards q_near->isStart only). -/
theorem rewire_goal_vertex_counterexample :
    2 ∈ exTree.goalConfigurations ∧ exTree.qGoal = some 2 ∧
    ((grow exEnv exTree 1 16 [1, 2, 0]).conf 2).parent ≠ (exTree.conf 2).parent ∧
    ((grow exEnv exTree 1 16 [1, 2, 0]).conf 2).cost ≠ (exTree.conf 2).cost ∧
    ((grow exEnv exTree 1 16 [1, 2, 0]).conf 2).lineCost ≠ (exTree.conf 2).lineCost := by
  refine ⟨List.mem_singleton_self 2, rfl, ?_, ?_, ?_⟩ <;>
    norm_num [grow, exTree, exEnv, chooseParent, chooseParentInit, chooseParentStep,
      rewire, rewireStep, removeFromParent, setConf, appendChild, updateChildCosts,
      growGoalPhase, goalScanStep, WithTop.coe_lt_coe]

/-- C3 (amended): the rewire loop skips only the new vertex's current
parent, so goal configurations can be rewired (their cost only
improves, and the goal re-scan restores the bookkeeping); the start
vertex, however, is never modified: after every grow call the root keeps
parent none, cost zero, and its lineCost and state are unchanged —
because every rewire route has nonnegative cost, no route can beat the
root's zero cost, so the root never fires. -/
theorem rewire_start_vertex_frame {S : Type} [Inhabited S] (E : GrowEnv S)
    (T : TreeState S) (vNearest : ℕ) (xNew : S) (nbh : List ℕ)
    (hmot : ∀ a b, 0 ≤ E.motionCost a b) (hT : TreeInv T)
    (hvn : vNearest < T.size) (hnbh : ∀ v ∈ nbh, v < T.size) :
    ((grow E T vNearest xNew nbh).conf 0).parent = none ∧
    ((grow E T vNearest xNew nbh).conf 0).cost = 0 ∧
    ((grow E T vNearest xNew nbh).conf 0).lineCost = (T.conf 0).lineCost ∧
    ((grow E T vNearest xNew nbh).conf 0).state = (T.conf 0).state :=
  (grow_spec E T vNearest xNew nbh hT hmot hvn hnbh).2.2

theorem rewire_start_vertex_frame_witness :
    (∀ a b : ℚ, 0 ≤ exEnv.motionCost a b) ∧ TreeInv exTree ∧
    (((grow exEnv exTree 1 16 [1, 2, 0]).conf 0).parent = none ∧
      ((grow exEnv exTree 1 16 [1, 2, 0]).conf 0).cost = 0 ∧
      ((grow exEnv exTree 1 16 [1, 2, 0]).conf 0).lineCost =
        (exTree.conf 0).lineCost ∧
      ((grow exEnv exTree 1 16 [1, 2, 0]).conf 0).state = (exTree.conf 0).state) :=
  ⟨fun a b => abs_nonneg (b - a), treeInv_exTree,
    rewire_start_vertex_frame exEnv exTree 1 16 [1, 2, 0]
      (fun a b => abs_nonneg (b - a)) treeInv_exTree (by norm_num [exTree])
      (by intro v hv; fin_cases hv <;> norm_num [exTree])⟩
